import Mathlib

/-!
# go-cache: consistent hash ring and lookaside cache group

A shallow embedding of `geecache/consistenthash/consistenthash.go`,
`geecache/geecache.go` and `DistributedCache/ByteView.go`, followed by the
properties of these programs that the specification states.

Modelling conventions.

* A Go `string` and a Go `[]byte` are both finite byte sequences; both are
  modelled by `List UInt8`, so the conversions `[]byte(s)` and `string(b)` are
  the identity on the model.
* Go `int` is taken to be 64 bits wide, so `int(x)` for `x : uint32` keeps the
  value of `x`; a `uint32` is a natural number reduced modulo `2^32`.
* A Go `map[int]string` is a function `Int → Option GoString`; reading a missing
  key yields the zero value `""`.
* A result of type `Option` is `none` exactly when the Go code would panic
  (index out of range) or a loop of the model ran out of its iteration budget.
* A `*Group` is an index into the list of the groups allocated so far.
* Where a property is about a slice being a copy of another, the namespace `Ref`
  gives `ByteView.go` and the methods of `Group` a second time, with a `[]byte`
  as a reference into a memory of byte arrays.
-/

namespace GoCache

/-- Go `string`: an immutable sequence of bytes. -/
abbrev GoString := List UInt8

/-- The bytes of a string literal (UTF-8 encoding, as the Go compiler stores it). -/
def lit (s : String) : GoString := s.data.flatMap String.utf8EncodeChar

/-! ## Standard library: `strconv.Itoa`, `hash/crc32`, `sort` -/

/-- Decimal digits of a natural number, most significant first, as ASCII bytes
prepended to `acc`.  The budget `fuel` bounds the number of digits. -/
def digitsAux : Nat → Nat → GoString → GoString
  | 0, _, acc => acc
  | fuel + 1, n, acc =>
    let acc1 := UInt8.ofNat (48 + n % 10) :: acc
    if n / 10 = 0 then acc1 else digitsAux fuel (n / 10) acc1

/-- Function `strconv.Itoa`: decimal representation of an integer. -/
def Itoa (i : Int) : GoString :=
  if i < 0 then (45 : UInt8) :: digitsAux (i.natAbs + 1) i.natAbs []
  else digitsAux (i.toNat + 1) i.toNat []

/-- Byte `c` is an ASCII decimal digit. -/
def isDigit (c : UInt8) : Bool := decide (48 ≤ c.toNat ∧ c.toNat ≤ 57)

/-- The number that a sequence of decimal digits denotes. -/
def digitsValue (ds : List UInt8) : Nat := ds.foldl (fun a d => 10 * a + (d.toNat - 48)) 0

/-- String `s` begins with a decimal digit. -/
def startsWithDigit : GoString → Bool
  | [] => false
  | c :: _ => isDigit c

/-- String `s` is the string `t` preceded by one or more decimal digits. -/
def digitPrefixed (s t : GoString) : Bool :=
  decide (t.length < s.length) && (s.drop (s.length - t.length) == t) &&
    (s.take (s.length - t.length)).all isDigit

/-- One bit step of the reflected CRC-32 with the IEEE polynomial. -/
def crcShift (c : Nat) : Nat :=
  if c % 2 = 1 then (c / 2) ^^^ 0xEDB88320 else c / 2

/-- Update of the CRC register with one byte. -/
def crcByte (c : Nat) (b : UInt8) : Nat :=
  crcShift (crcShift (crcShift (crcShift (crcShift (crcShift (crcShift (crcShift
    (c ^^^ b.toNat))))))))

/-- Function `crc32.ChecksumIEEE`. -/
def ChecksumIEEE (data : List UInt8) : Nat :=
  (data.foldl crcByte 0xFFFFFFFF) ^^^ 0xFFFFFFFF

/-- Function `sort.Ints`: the ascending rearrangement of a list of integers. -/
def sortInts (l : List Int) : List Int := l.insertionSort (· ≤ ·)

/-- Loop of `sort.Search`: `for i < j { h := (i+j)/2; if !f(h) { i = h+1 } else { j = h } }`.
The predicate returns `none` when it panics. -/
def searchLoop (f : Nat → Option Bool) : Nat → Nat → Nat → Option Nat
  | 0, i, j => if i < j then none else some i
  | fuel + 1, i, j =>
    if i < j then
      let h := (i + j) / 2
      match f h with
      | none => none
      | some false => searchLoop f fuel (h + 1) j
      | some true => searchLoop f fuel i h
    else some i

/-- Function `sort.Search(n, f)`. -/
def Search (n : Nat) (f : Nat → Option Bool) : Option Nat := searchLoop f n 0 n

/-! ## `consistenthash.go` -/

/-- Type `Hash func(data []byte) uint32`; the result is used modulo `2^32`. -/
abbrev Hash := List UInt8 → Nat

/-- Struct `Map`. -/
structure Map where
  hash : Hash
  replicas : Int
  keys : List Int
  hashMap : Int → Option GoString

namespace Map

/-- Function `New(replicas, fn)`; `fn = none` is the nil function. -/
def New (replicas : Int) (fn : Option Hash) : Map :=
  { hash := fn.getD ChecksumIEEE, replicas := replicas, keys := [], hashMap := fun _ => none }

/-- Expression `int(m.hash([]byte(s)))`. -/
def hashInt (m : Map) (s : GoString) : Int := Int.ofNat (m.hash s % 2 ^ 32)

/-- Statement `m.hashMap[h] = key`. -/
def setHashMap (hm : Int → Option GoString) (h : Int) (key : GoString) :
    Int → Option GoString :=
  fun x => if x = h then some key else hm x

/-- Body of the inner loop of `Add` for replica index `i`. -/
def addReplica (key : GoString) (m : Map) (i : Nat) : Map :=
  let hash := m.hashInt (Itoa (Int.ofNat i) ++ key)
  { m with keys := m.keys ++ [hash], hashMap := setHashMap m.hashMap hash key }

/-- Inner loop of `Add`: `for i := 0; i < m.replicas; i++`. -/
def addKey (m : Map) (key : GoString) : Map :=
  (List.range m.replicas.toNat).foldl (addReplica key) m

/-- Method `Add(keys ...string)`. -/
def Add (m : Map) (keys : List GoString) : Map :=
  let m1 := keys.foldl addKey m
  { m1 with keys := sortInts m1.keys }

/-- Method `Get(key)`. -/
def Get (m : Map) (key : GoString) : Option GoString :=
  if m.keys.length = 0 then some []
  else
    let hash := m.hashInt key
    match Search m.keys.length (fun i => (m.keys[i]?).map (fun v => decide (v ≥ hash))) with
    | none => none
    | some idx =>
      match m.keys[idx % m.keys.length]? with
      | none => none
      | some v => some ((m.hashMap v).getD [])

/-- A sequence of `Add` calls, one list of node ids per call. -/
def addCalls (m : Map) (calls : List (List GoString)) : Map := calls.foldl Add m

/-- Ring states that `New` followed by any number of `Add` calls can produce. -/
inductive Reachable : Map → Prop
  | new (replicas : Int) (fn : Option Hash) : Reachable (New replicas fn)
  | add {m : Map} (keys : List GoString) : Reachable m → Reachable (m.Add keys)

/-- The values `int(m.hash([]byte(strconv.Itoa(i) + key)))` for `i = 0, ..., m.replicas - 1`:
the virtual-node hash values that `Add` computes for the node id `key`. -/
def virtualHashes (m : Map) (key : GoString) : List Int :=
  (List.range m.replicas.toNat).map (fun i => m.hashInt (Itoa (Int.ofNat i) ++ key))

/-- Value `v` is the first value of `keys` at or after `h` on the ring: the least value of
`keys` that is `≥ h`, or the least value of all when no value is `≥ h` (wrap-around). -/
def IsSuccessor (keys : List Int) (h v : Int) : Prop :=
  v ∈ keys ∧ ((h ≤ v ∧ ∀ u ∈ keys, h ≤ u → v ≤ u) ∨ ((∀ u ∈ keys, u < h) ∧ ∀ u ∈ keys, v ≤ u))

instance (keys : List Int) (h v : Int) : Decidable (IsSuccessor keys h v) := by
  unfold IsSuccessor; exact inferInstance

/-- Ring `m` has the hash function and replication factor of `m0`, its hash sequence holds
exactly the virtual-node hash values of the node ids `ids`, and its mapping sends each of
them to one of the ids that it is a virtual-node hash value of. -/
structure Tracks (m0 : Map) (ids : List GoString) (m : Map) : Prop where
  hash_eq : m.hash = m0.hash
  replicas_eq : m.replicas = m0.replicas
  mem_keys : ∀ x, x ∈ m.keys ↔ ∃ s ∈ ids, x ∈ m0.virtualHashes s
  owner : ∀ x ∈ m.keys, ∃ s ∈ ids, x ∈ m0.virtualHashes s ∧ m.hashMap x = some s

end Map

/-! ## `ByteView.go` -/

/-- Builtin `make([]byte, n)`: `n` zero bytes. -/
def make (n : Nat) : List UInt8 := List.replicate n 0

/-- Builtin `copy(dst, src)`: the contents of `dst` afterwards; the first
`min(len(dst), len(src))` bytes come from `src`. -/
def copy (dst src : List UInt8) : List UInt8 := src.take dst.length ++ dst.drop src.length

/-- Function `cloneBytes`. -/
def cloneBytes (b : List UInt8) : List UInt8 := copy (make b.length) b

/-- Struct `ByteView`. -/
structure ByteView where
  b : List UInt8
  deriving DecidableEq

/-- Method `ByteView.Len`. -/
def ByteView.Len (v : ByteView) : Nat := v.b.length

/-- Method `ByteView.ByteSlice`. -/
def ByteView.ByteSlice (v : ByteView) : List UInt8 := cloneBytes v.b

/-- Method `ByteView.String`. -/
def ByteView.String (v : ByteView) : GoString := v.b

/-! ## `geecache.go`

The methods of `Group` are written in state-passing style: a method returns, next to its Go
results, the group after the call, the environment of the getter after the call, and the list
of the calls it made to its collaborators, oldest first. -/

/-- Go `error` value, identified by its message; `Option GoError` is an `error` that may be
`nil`. -/
structure GoError where
  msg : String
  deriving DecidableEq

/-- Type `cache` of the package, whose declaration is not among the sources at hand: a store
with states `σ`, the literal `cache{cacheBytes: n}` and the methods `get` and `add`. -/
structure cache (σ : Type) where
  new : Int → σ
  get : σ → GoString → (ByteView × Bool) × σ
  add : σ → GoString → ByteView → σ

/-- Interface `Getter`: method `Get(key) ([]byte, error)` acting on an environment `γ`. -/
abbrev Getter (γ : Type) := γ → GoString → (List UInt8 × Option GoError) × γ

/-- Struct `Group`. -/
structure Group (σ γ : Type) where
  name : GoString
  getter : Getter γ
  mainCache : σ

/-- A call that a method of `Group` makes to a collaborator. -/
inductive Call where
  | getterGet (key : GoString)
  | cacheGet (key : GoString)
  | cacheAdd (key : GoString) (value : ByteView)
  | logPrintln (msg : String)
  deriving DecidableEq

/-- What a method of `Group` with results `(ByteView, error)` leaves behind. -/
structure Outcome (σ γ : Type) where
  value : ByteView
  err : Option GoError
  group : Group σ γ
  env : γ
  calls : List Call

namespace Group

variable {σ γ : Type}

/-- Method `populateCache`. -/
def populateCache (C : cache σ) (g : Group σ γ) (key : GoString) (value : ByteView) :
    Group σ γ × List Call :=
  ({ g with mainCache := C.add g.mainCache key value }, [Call.cacheAdd key value])

/-- Method `getLocally`. -/
def getLocally (C : cache σ) (g : Group σ γ) (key : GoString) (env : γ) : Outcome σ γ :=
  match g.getter env key with
  | ((_, some err), env1) =>
    { value := ⟨[]⟩, err := some err, group := g, env := env1, calls := [Call.getterGet key] }
  | ((bytes, none), env1) =>
    let value : ByteView := ⟨cloneBytes bytes⟩
    let p := populateCache C g key value
    { value := value, err := none, group := p.1, env := env1,
      calls := Call.getterGet key :: p.2 }

/-- Method `load`. -/
def load (C : cache σ) (g : Group σ γ) (key : GoString) (env : γ) : Outcome σ γ :=
  getLocally C g key env

/-- Method `Get`. -/
def Get (C : cache σ) (g : Group σ γ) (key : GoString) (env : γ) : Outcome σ γ :=
  if key = [] then
    { value := ⟨[]⟩, err := some ⟨"key is required"⟩, group := g, env := env, calls := [] }
  else
    match C.get g.mainCache key with
    | ((v, true), s1) =>
      { value := v, err := none, group := { g with mainCache := s1 }, env := env,
        calls := [Call.cacheGet key, Call.logPrintln "[D_Cache] hit"] }
    | ((_, false), s1) =>
      let o := load C { g with mainCache := s1 } key env
      { o with calls := Call.cacheGet key :: o.calls }

end Group

/-! ### The registry

A `*Group` is the index of a `Group` value in `heap`; the nil pointer is `none`.  The lock
`mu` is held for the whole of each critical section and is not part of the state: the
functions below are the sequential behaviour. -/

/-- Package-level state: the `Group` values allocated so far and the variable `groups`. -/
structure Registry (σ γ : Type) where
  heap : List (Group σ γ)
  groups : GoString → Option Nat

/-- State at program start: `groups = make(map[string]*Group)`, nothing allocated. -/
def Registry.init {σ γ : Type} : Registry σ γ := { heap := [], groups := fun _ => none }

/-- What a call of `NewGroup` leaves behind: the value it panicked with, if it did, the
pointer it returned, if it returned, and the package-level state. -/
structure Created (σ γ : Type) where
  panic : Option String
  group : Option Nat
  registry : Registry σ γ

/-- Function `NewGroup(name, cacheBytes, getter)`; `getter = none` is the nil interface. -/
def NewGroup {σ γ : Type} (C : cache σ) (r : Registry σ γ) (name : GoString) (cacheBytes : Int)
    (getter : Option (Getter γ)) : Created σ γ :=
  match getter with
  | none => { panic := some "nil Getter", group := none, registry := r }
  | some gt =>
    let g : Group σ γ := { name := name, getter := gt, mainCache := C.new cacheBytes }
    { panic := none, group := some r.heap.length,
      registry :=
        { heap := r.heap ++ [g],
          groups := fun n => if n = name then some r.heap.length else r.groups n } }

/-- Function `GetGroup(name)`. -/
def GetGroup {σ γ : Type} (r : Registry σ γ) (name : GoString) : Option Nat := r.groups name

/-- A sequence of `NewGroup` calls from program start, one triple of arguments per call; a
call that panics is taken to be recovered from. -/
def Registry.afterCalls {σ γ : Type} (C : cache σ)
    (calls : List (GoString × Int × Option (Getter γ))) : Registry σ γ :=
  calls.foldl (fun r c => (NewGroup C r c.1 c.2.1 c.2.2).registry) Registry.init

/-- The call `p.Get(key)` of the method `Group.Get` through the pointer `p`: the group that
`p` refers to is replaced by the group after the call; `none` when `p` refers to no group. -/
def Registry.derefGet {σ γ : Type} (C : cache σ) (r : Registry σ γ) (p : Nat) (key : GoString)
    (env : γ) : Option (Outcome σ γ × Registry σ γ) :=
  match r.heap[p]? with
  | none => none
  | some g =>
    let o := Group.Get C g key env
    some (o, { r with heap := r.heap.set p o.group })

/-- Registry states that the program can reach: from the state at program start by calls of
`NewGroup` and calls of `Get` through pointers. -/
inductive Registry.Reachable {σ γ : Type} (C : cache σ) : Registry σ γ → Prop
  | init : Registry.Reachable C Registry.init
  | newGroup {r : Registry σ γ} (name : GoString) (size : Int) (getter : Option (Getter γ)) :
      Registry.Reachable C r → Registry.Reachable C (NewGroup C r name size getter).registry
  | get {r r1 : Registry σ γ} (p : Nat) (key : GoString) (env : γ) (o : Outcome σ γ) :
      Registry.Reachable C r → Registry.derefGet C r p key env = some (o, r1) →
      Registry.Reachable C r1

/-- Every pointer in `groups` refers to an allocated group that carries the name it is
registered under. -/
def Registry.Named {σ γ : Type} (r : Registry σ γ) : Prop :=
  ∀ n p, r.groups n = some p → ∃ g, r.heap[p]? = some g ∧ g.name = n

/-! ## `ByteView.go` and `getLocally` with slices as references

To tell a copy of a slice from the slice itself, the byte arrays are kept in a memory and a
`[]byte` value is a reference to one of them.  No slice in these files is resliced, so a
slice spans its whole array. -/

/-- Memory: the byte arrays allocated so far, by address. -/
abbrev Mem := List (List UInt8)

/-- A `[]byte` value: the address of its array; `none` is the nil slice. -/
abbrev Slice := Option Nat

namespace Ref

/-- The bytes that the slice `s` holds in the memory `mem`. -/
def contents (mem : Mem) (s : Slice) : List UInt8 :=
  match s with
  | none => []
  | some a => (mem[a]?).getD []

/-- The slice refers to an array of the memory (or is nil). -/
def Allocated (mem : Mem) (s : Slice) : Prop := ∀ a, s = some a → a < mem.length

instance (mem : Mem) (s : Slice) : Decidable (Allocated mem s) :=
  match s with
  | none => isTrue (fun _ h => nomatch h)
  | some a =>
    if h : a < mem.length then isTrue (fun b hb => by cases hb; exact h)
    else isFalse (fun hall => h (hall a rfl))

/-- Builtin `make([]byte, n)`: a new array of `n` zero bytes. -/
def make (mem : Mem) (n : Nat) : Slice × Mem := (some mem.length, mem ++ [List.replicate n 0])

/-- Builtin `copy(dst, src)`. -/
def copy (mem : Mem) (dst src : Slice) : Mem :=
  match dst with
  | none => mem
  | some a => mem.set a (GoCache.copy (contents mem dst) (contents mem src))

/-- Function `cloneBytes`. -/
def cloneBytes (mem : Mem) (b : Slice) : Slice × Mem :=
  let c := make mem (contents mem b).length
  (c.1, copy c.2 c.1 b)

/-- Assignment `s[i] = x`; `none` when the index is out of range. -/
def assign (mem : Mem) (s : Slice) (i : Nat) (x : UInt8) : Option Mem :=
  match s with
  | none => none
  | some a => if i < (contents mem s).length then some (mem.set a ((contents mem s).set i x))
      else none

/-- A sequence of assignments `s[i] = x` to one slice. -/
def assigns (mem : Mem) (s : Slice) : List (Nat × UInt8) → Option Mem
  | [] => some mem
  | w :: ws =>
    match assign mem s w.1 w.2 with
    | none => none
    | some mem1 => assigns mem1 s ws

/-- Struct `ByteView`. -/
structure ByteView where
  b : Slice
  deriving DecidableEq

/-- Method `ByteView.Len`. -/
def ByteView.Len (mem : Mem) (v : ByteView) : Nat := (contents mem v.b).length

/-- Method `ByteView.ByteSlice`. -/
def ByteView.ByteSlice (mem : Mem) (v : ByteView) : Slice × Mem := cloneBytes mem v.b

/-- Method `ByteView.String`. -/
def ByteView.String (mem : Mem) (v : ByteView) : GoString := contents mem v.b

/-- Type `cache`, as before, holding views by reference; the store does not touch the byte
arrays. -/
structure cache (σ : Type) where
  new : Int → σ
  get : σ → GoString → (ByteView × Bool) × σ
  add : σ → GoString → ByteView → σ

/-- Interface `Getter`: the method may allocate, and returns a slice. -/
abbrev Getter (γ : Type) := γ → Mem → GoString → (Slice × Option GoError) × γ × Mem

/-- Struct `Group`. -/
structure Group (σ γ : Type) where
  name : GoString
  getter : Getter γ
  mainCache : σ

/-- What a method of `Group` with results `(ByteView, error)` leaves behind. -/
structure Outcome (σ γ : Type) where
  value : ByteView
  err : Option GoError
  group : Group σ γ
  env : γ
  mem : Mem

/-- Method `populateCache`. -/
def Group.populateCache {σ γ : Type} (C : cache σ) (g : Group σ γ) (key : GoString)
    (value : ByteView) : Group σ γ :=
  { g with mainCache := C.add g.mainCache key value }

/-- Method `getLocally`. -/
def Group.getLocally {σ γ : Type} (C : cache σ) (g : Group σ γ) (key : GoString) (env : γ)
    (mem : Mem) : Outcome σ γ :=
  match g.getter env mem key with
  | ((_, some err), env1, mem1) =>
    { value := ⟨none⟩, err := some err, group := g, env := env1, mem := mem1 }
  | ((bytes, none), env1, mem1) =>
    let c := cloneBytes mem1 bytes
    let value : ByteView := ⟨c.1⟩
    { value := value, err := none, group := Group.populateCache C g key value, env := env1,
      mem := c.2 }

/-- Method `load`. -/
def Group.load {σ γ : Type} (C : cache σ) (g : Group σ γ) (key : GoString) (env : γ)
    (mem : Mem) : Outcome σ γ :=
  Group.getLocally C g key env mem

/-- Method `Get`. -/
def Group.Get {σ γ : Type} (C : cache σ) (g : Group σ γ) (key : GoString) (env : γ)
    (mem : Mem) : Outcome σ γ :=
  if key = [] then
    { value := ⟨none⟩, err := some ⟨"key is required"⟩, group := g, env := env, mem := mem }
  else
    match C.get g.mainCache key with
    | ((v, true), s1) =>
      { value := v, err := none, group := { g with mainCache := s1 }, env := env, mem := mem }
    | ((_, false), s1) => Group.load C { g with mainCache := s1 } key env mem

end Ref

/-! ## `DistributedCache_test.go` and a store for examples -/

/-- Variable `db` of the test file. -/
def db : List (GoString × GoString) :=
  [(lit "Tom", lit "630"), (lit "Jack", lit "589"), (lit "Sam", lit "567")]

/-- The getter that `TestGet` passes to `NewGroup`; its environment is the map `loadCounts`. -/
def testGetter : Getter (GoString → Nat) := fun loadCounts key =>
  match db.lookup key with
  | some v => ((v, none), fun k => if k = key then loadCounts k + 1 else loadCounts k)
  | none => (([], some ⟨"not exist"⟩), loadCounts)

/-- A store that keeps every entry it is given, most recent first: an instance of the type
`cache` for the examples. -/
def listCache : cache (List (GoString × ByteView)) where
  new := fun _ => []
  get := fun s key =>
    match s.lookup key with
    | some v => ((v, true), s)
    | none => ((⟨[]⟩, false), s)
  add := fun s key value => (key, value) :: s

/-! ## Properties of the ring -/

namespace Map

theorem foldl_addReplica (key : GoString) (l : List Nat) (m : Map) :
    (l.foldl (addReplica key) m).hash = m.hash ∧
    (l.foldl (addReplica key) m).replicas = m.replicas ∧
    (l.foldl (addReplica key) m).keys
      = m.keys ++ l.map (fun i => m.hashInt (Itoa (Int.ofNat i) ++ key)) ∧
    ∀ x, (l.foldl (addReplica key) m).hashMap x
      = if x ∈ l.map (fun i => m.hashInt (Itoa (Int.ofNat i) ++ key)) then some key
        else m.hashMap x := by
  induction l generalizing m with
  | nil => simp
  | cons i l ih =>
    obtain ⟨h1, h2, h3, h4⟩ := ih (addReplica key m i)
    simp only [List.foldl_cons]
    refine ⟨by rw [h1]; rfl, by rw [h2]; rfl, ?_, ?_⟩
    · rw [h3]; simp [addReplica, hashInt]
    · intro x
      rw [h4]
      simp only [addReplica, hashInt, setHashMap, List.map_cons, List.mem_cons]
      split_ifs with a b c c <;> first | rfl | (exfalso; tauto)

theorem addKey_hash (m : Map) (key : GoString) : (m.addKey key).hash = m.hash :=
  (foldl_addReplica key _ m).1

theorem addKey_replicas (m : Map) (key : GoString) : (m.addKey key).replicas = m.replicas :=
  (foldl_addReplica key _ m).2.1

theorem addKey_keys (m : Map) (key : GoString) :
    (m.addKey key).keys = m.keys ++ m.virtualHashes key :=
  (foldl_addReplica key _ m).2.2.1

theorem addKey_hashMap (m : Map) (key : GoString) (x : Int) :
    (m.addKey key).hashMap x = if x ∈ m.virtualHashes key then some key else m.hashMap x :=
  (foldl_addReplica key _ m).2.2.2 x

theorem virtualHashes_congr {m m1 : Map} (hh : m1.hash = m.hash) (hr : m1.replicas = m.replicas)
    (key : GoString) : m1.virtualHashes key = m.virtualHashes key := by
  simp [virtualHashes, hashInt, hh, hr]


theorem foldl_addKey_hash (ks : List GoString) (m : Map) : (ks.foldl addKey m).hash = m.hash := by
  induction ks generalizing m with
  | nil => rfl
  | cons k ks ih => rw [List.foldl_cons, ih, addKey_hash]

theorem foldl_addKey_replicas (ks : List GoString) (m : Map) :
    (ks.foldl addKey m).replicas = m.replicas := by
  induction ks generalizing m with
  | nil => rfl
  | cons k ks ih => rw [List.foldl_cons, ih, addKey_replicas]

theorem virtualHashes_addKey (m : Map) (k : GoString) :
    (m.addKey k).virtualHashes = m.virtualHashes :=
  funext (virtualHashes_congr (addKey_hash m k) (addKey_replicas m k))

theorem foldl_addKey_keys (ks : List GoString) (m : Map) :
    (ks.foldl addKey m).keys = m.keys ++ ks.flatMap m.virtualHashes := by
  induction ks generalizing m with
  | nil => simp
  | cons k ks ih =>
    rw [List.foldl_cons, ih, addKey_keys, virtualHashes_addKey]
    simp

theorem foldl_addKey_hashMap_of_not_mem (ks : List GoString) (m : Map) (x : Int)
    (hx : ∀ s ∈ ks, x ∉ m.virtualHashes s) : (ks.foldl addKey m).hashMap x = m.hashMap x := by
  induction ks generalizing m with
  | nil => rfl
  | cons k ks ih =>
    rw [List.foldl_cons, ih, addKey_hashMap, if_neg (hx k (List.mem_cons_self _ _))]
    intro s hs
    rw [virtualHashes_addKey]
    exact hx s (List.mem_cons_of_mem _ hs)

theorem foldl_addKey_hashMap_of_mem (ks : List GoString) (m : Map) (x : Int)
    (hx : ∃ s ∈ ks, x ∈ m.virtualHashes s) :
    ∃ s ∈ ks, x ∈ m.virtualHashes s ∧ (ks.foldl addKey m).hashMap x = some s := by
  induction ks generalizing m with
  | nil => obtain ⟨s, hs, _⟩ := hx; cases hs
  | cons k ks ih =>
    rw [List.foldl_cons]
    by_cases hlater : ∃ s ∈ ks, x ∈ m.virtualHashes s
    · obtain ⟨s, hs, hxs, heq⟩ := ih (m.addKey k) (by rw [virtualHashes_addKey]; exact hlater)
      rw [virtualHashes_addKey] at hxs
      exact ⟨s, List.mem_cons_of_mem _ hs, hxs, heq⟩
    · obtain ⟨s, hs, hxs⟩ := hx
      have hk : s = k := by
        rcases List.mem_cons.1 hs with h | h
        · exact h
        · exact absurd ⟨s, h, hxs⟩ hlater
      subst hk
      refine ⟨s, List.mem_cons_self _ _, hxs, ?_⟩
      rw [foldl_addKey_hashMap_of_not_mem, addKey_hashMap, if_pos hxs]
      intro t ht hxt
      rw [virtualHashes_addKey] at hxt
      exact hlater ⟨t, ht, hxt⟩

theorem Add_hash (m : Map) (ks : List GoString) : (m.Add ks).hash = m.hash :=
  foldl_addKey_hash ks m

theorem Add_replicas (m : Map) (ks : List GoString) : (m.Add ks).replicas = m.replicas :=
  foldl_addKey_replicas ks m

theorem Add_keys (m : Map) (ks : List GoString) :
    (m.Add ks).keys = sortInts (m.keys ++ ks.flatMap m.virtualHashes) := by
  show sortInts (ks.foldl addKey m).keys = _
  rw [foldl_addKey_keys]

theorem Add_hashMap (m : Map) (ks : List GoString) :
    (m.Add ks).hashMap = (ks.foldl addKey m).hashMap := rfl

theorem virtualHashes_Add (m : Map) (ks : List GoString) :
    (m.Add ks).virtualHashes = m.virtualHashes :=
  funext (virtualHashes_congr (Add_hash m ks) (Add_replicas m ks))

theorem hashInt_Add (m : Map) (ks : List GoString) (s : GoString) :
    (m.Add ks).hashInt s = m.hashInt s := by
  simp [hashInt, Add_hash]

theorem mem_Add_keys (m : Map) (ks : List GoString) (x : Int) :
    x ∈ (m.Add ks).keys ↔ x ∈ m.keys ∨ ∃ s ∈ ks, x ∈ m.virtualHashes s := by
  rw [Add_keys, sortInts, List.mem_insertionSort]
  simp [List.mem_flatMap]

theorem sorted_Add_keys (m : Map) (ks : List GoString) : (m.Add ks).keys.Sorted (· ≤ ·) := by
  rw [Add_keys]
  exact List.sorted_insertionSort _ _

theorem Reachable.sorted {m : Map} (h : Reachable m) : m.keys.Sorted (· ≤ ·) := by
  cases h with
  | new r fn => exact List.sorted_nil
  | add ks _ => exact sorted_Add_keys _ ks

theorem Reachable.mem_keys_iff {m : Map} (h : Reachable m) (x : Int) :
    x ∈ m.keys ↔ (m.hashMap x).isSome = true := by
  induction h with
  | new r fn => simp [New]
  | @add m0 ks _ ih =>
    rw [mem_Add_keys, Add_hashMap]
    by_cases hx : ∃ s ∈ ks, x ∈ m0.virtualHashes s
    · obtain ⟨s, _, _, heq⟩ := foldl_addKey_hashMap_of_mem ks m0 x hx
      simp [hx, heq]
    · rw [foldl_addKey_hashMap_of_not_mem ks m0 x (by
        intro s hs hxs; exact hx ⟨s, hs, hxs⟩), ← ih]
      simp [hx]


end Map

theorem searchLoop_spec (f : Nat → Option Bool) (p : Nat → Bool) (n : Nat)
    (hf : ∀ h, h < n → f h = some (p h))
    (hmono : ∀ a b, a ≤ b → b < n → p a = true → p b = true) :
    ∀ fuel i j, i ≤ j → j ≤ n → j - i ≤ fuel →
      (∀ k, k < i → p k = false) → (∀ k, j ≤ k → k < n → p k = true) →
      ∃ r, searchLoop f fuel i j = some r ∧ r ≤ n ∧
        (∀ k, k < r → p k = false) ∧ (∀ k, r ≤ k → k < n → p k = true) := by
  intro fuel
  induction fuel with
  | zero =>
    intro i j hij hjn hfuel hlo hhi
    have : i = j := by omega
    subst this
    exact ⟨i, by simp [searchLoop], hjn, hlo, hhi⟩
  | succ fuel ih =>
    intro i j hij hjn hfuel hlo hhi
    by_cases hlt : i < j
    · have hh1 : i ≤ (i + j) / 2 := by omega
      have hh2 : (i + j) / 2 < j := by omega
      have hfh := hf ((i + j) / 2) (by omega)
      cases hp : p ((i + j) / 2) with
      | false =>
        have hlo1 : ∀ k, k < (i + j) / 2 + 1 → p k = false := by
          intro k hk
          cases hpk : p k with
          | false => rfl
          | true =>
            have := hmono k ((i + j) / 2) (by omega) (by omega) hpk
            rw [hp] at this
            cases this
        obtain ⟨r, hr⟩ := ih ((i + j) / 2 + 1) j (by omega) hjn (by omega) hlo1 hhi
        refine ⟨r, ?_, hr.2⟩
        rw [searchLoop, if_pos hlt]
        simp only [hfh, hp]
        exact hr.1
      | true =>
        have hhi1 : ∀ k, (i + j) / 2 ≤ k → k < n → p k = true :=
          fun k hk hkn => hmono _ k hk hkn hp
        obtain ⟨r, hr⟩ := ih i ((i + j) / 2) hh1 (by omega) (by omega) hlo hhi1
        refine ⟨r, ?_, hr.2⟩
        rw [searchLoop, if_pos hlt]
        simp only [hfh, hp]
        exact hr.1
    · have : i = j := by omega
      subst this
      exact ⟨i, by simp [searchLoop], hjn, hlo, hhi⟩

theorem Search_spec (f : Nat → Option Bool) (p : Nat → Bool) (n : Nat)
    (hf : ∀ h, h < n → f h = some (p h))
    (hmono : ∀ a b, a ≤ b → b < n → p a = true → p b = true) :
    ∃ r, Search n f = some r ∧ r ≤ n ∧
      (∀ k, k < r → p k = false) ∧ (∀ k, r ≤ k → k < n → p k = true) :=
  searchLoop_spec f p n hf hmono n 0 n (Nat.zero_le _) (Nat.le_refl _) (by omega)
    (fun k hk => absurd hk (Nat.not_lt_zero _)) (fun k hk hkn => absurd hkn (by omega))

theorem sorted_getElem_le {l : List Int} (hs : l.Sorted (· ≤ ·)) {a b : Nat} (hab : a ≤ b)
    (hb : b < l.length) : l[a] ≤ l[b] := by
  rcases Nat.eq_or_lt_of_le hab with h | h
  · subst h; exact le_refl _
  · exact (List.pairwise_iff_getElem.1 hs) a b (by omega) hb h

namespace Map

theorem Get_of_sorted (m : Map) (key : GoString) (hs : m.keys.Sorted (· ≤ ·))
    (hne : m.keys ≠ []) :
    ∃ v, IsSuccessor m.keys (m.hashInt key) v ∧ m.Get key = some ((m.hashMap v).getD []) := by
  have hn : 0 < m.keys.length := List.length_pos.2 hne
  obtain ⟨r, hS, hrn, hlo, hhi⟩ := Search_spec
    (fun i => (m.keys[i]?).map (fun v => decide (v ≥ m.hashInt key)))
    (fun i => decide (m.keys.getD i 0 ≥ m.hashInt key)) m.keys.length
    (by
      intro h hh
      simp [List.getElem?_eq_getElem hh, List.getD_eq_getElem _ _ hh])
    (by
      intro a b hab hb
      simp only [List.getD_eq_getElem _ _ hb, List.getD_eq_getElem _ _ (lt_of_le_of_lt hab hb),
        decide_eq_true_eq]
      intro h
      exact le_trans h (sorted_getElem_le hs hab hb))
  have hidx : r % m.keys.length < m.keys.length := Nat.mod_lt _ hn
  refine ⟨m.keys[r % m.keys.length], ⟨List.getElem_mem _, ?_⟩, ?_⟩
  · rcases Nat.eq_or_lt_of_le hrn with h | h
    · right
      have hall : ∀ u ∈ m.keys, u < m.hashInt key := by
        intro u hu
        obtain ⟨k, hk, rfl⟩ := List.mem_iff_getElem.1 hu
        have := hlo k (by omega)
        rw [List.getD_eq_getElem _ _ hk] at this
        simpa using this
      refine ⟨hall, ?_⟩
      intro u hu
      obtain ⟨k, hk, rfl⟩ := List.mem_iff_getElem.1 hu
      have h0 : r % m.keys.length = 0 := by rw [h]; exact Nat.mod_self _
      simp only [h0]
      exact sorted_getElem_le hs (Nat.zero_le _) hk
    · left
      have hmod : r % m.keys.length = r := Nat.mod_eq_of_lt h
      simp only [hmod]
      constructor
      · have := hhi r (Nat.le_refl _) h
        rw [List.getD_eq_getElem _ _ h] at this
        simpa using this
      · intro u hu hge
        obtain ⟨k, hk, rfl⟩ := List.mem_iff_getElem.1 hu
        have hrk : r ≤ k := by
          by_contra hcon
          have := hlo k (by omega)
          rw [List.getD_eq_getElem _ _ hk] at this
          simp at this
          omega
        exact sorted_getElem_le hs hrk hk
  · unfold Get
    rw [if_neg (by omega)]
    simp only [hS, List.getElem?_eq_getElem hidx]

theorem IsSuccessor.unique {keys : List Int} {h v w : Int} (hv : IsSuccessor keys h v)
    (hw : IsSuccessor keys h w) : v = w := by
  obtain ⟨hvm, hv⟩ := hv
  obtain ⟨hwm, hw⟩ := hw
  rcases hv with ⟨hv1, hv2⟩ | ⟨hv1, hv2⟩ <;> rcases hw with ⟨hw1, hw2⟩ | ⟨hw1, hw2⟩
  · exact le_antisymm (hv2 w hwm hw1) (hw2 v hvm hv1)
  · exact absurd (hw1 v hvm) (not_lt.2 hv1)
  · exact absurd (hv1 w hwm) (not_lt.2 hw1)
  · exact le_antisymm (hv2 w hwm) (hw2 v hvm)

theorem IsSuccessor.congr {k1 k2 : List Int} (hk : ∀ x, x ∈ k1 ↔ x ∈ k2) {h v : Int}
    (hv : IsSuccessor k1 h v) : IsSuccessor k2 h v := by
  obtain ⟨hvm, hv⟩ := hv
  refine ⟨(hk v).1 hvm, ?_⟩
  rcases hv with ⟨hv1, hv2⟩ | ⟨hv1, hv2⟩
  · exact Or.inl ⟨hv1, fun u hu => hv2 u ((hk u).2 hu)⟩
  · exact Or.inr ⟨fun u hu => hv1 u ((hk u).2 hu), fun u hu => hv2 u ((hk u).2 hu)⟩

theorem Get_eq_of_successor (m : Map) (key : GoString) (hs : m.keys.Sorted (· ≤ ·)) {v : Int}
    (hv : IsSuccessor m.keys (m.hashInt key) v) : m.Get key = some ((m.hashMap v).getD []) := by
  obtain ⟨w, hw, hget⟩ := Get_of_sorted m key hs (List.ne_nil_of_mem hv.1)
  rw [hget, hw.unique hv]

theorem Get_of_keys_nil (m : Map) (key : GoString) (h : m.keys = []) : m.Get key = some [] := by
  simp [Get, h]

theorem Get_congr (m1 m2 : Map) (key : GoString) (hs1 : m1.keys.Sorted (· ≤ ·))
    (hs2 : m2.keys.Sorted (· ≤ ·)) (hh : m1.hash = m2.hash)
    (hk : ∀ x, x ∈ m1.keys ↔ x ∈ m2.keys)
    (hm : ∀ x ∈ m1.keys, m1.hashMap x = m2.hashMap x) : m1.Get key = m2.Get key := by
  by_cases hnil : m1.keys = []
  · have hnil2 : m2.keys = [] := by
      apply List.eq_nil_iff_forall_not_mem.2
      intro x hx
      have := (hk x).2 hx
      rw [hnil] at this
      cases this
    rw [Get_of_keys_nil m1 key hnil, Get_of_keys_nil m2 key hnil2]
  · obtain ⟨v, hv, hget⟩ := Get_of_sorted m1 key hs1 hnil
    have hv2 : IsSuccessor m2.keys (m2.hashInt key) v := by
      have : m2.hashInt key = m1.hashInt key := by simp [hashInt, hh]
      rw [this]
      exact hv.congr hk
    rw [hget, Get_eq_of_successor m2 key hs2 hv2, hm v hv.1]

theorem Reachable.closed_addCalls {m : Map} (h : Reachable m) (calls : List (List GoString)) :
    Reachable (m.addCalls calls) := by
  induction calls generalizing m with
  | nil => exact h
  | cons ks calls ih => exact ih (Reachable.add ks h)

theorem Tracks.of_New (replicas : Int) (fn : Option Hash) :
    Tracks (New replicas fn) [] (New replicas fn) :=
  ⟨rfl, rfl, fun x => by simp [New], fun x hx => by simp [New] at hx⟩

theorem Tracks.of_Add {m0 m : Map} {ids : List GoString} (h : Tracks m0 ids m)
    (ks : List GoString) : Tracks m0 (ids ++ ks) (m.Add ks) := by
  have hvh : m.virtualHashes = m0.virtualHashes :=
    funext (virtualHashes_congr h.hash_eq h.replicas_eq)
  have hmem : ∀ x, x ∈ (m.Add ks).keys ↔ ∃ s ∈ ids ++ ks, x ∈ m0.virtualHashes s := by
    intro x
    rw [mem_Add_keys, h.mem_keys, hvh]
    simp only [List.mem_append]
    constructor
    · rintro (⟨s, hs, hx⟩ | ⟨s, hs, hx⟩)
      · exact ⟨s, Or.inl hs, hx⟩
      · exact ⟨s, Or.inr hs, hx⟩
    · rintro ⟨s, hs | hs, hx⟩
      · exact Or.inl ⟨s, hs, hx⟩
      · exact Or.inr ⟨s, hs, hx⟩
  refine ⟨by rw [Add_hash, h.hash_eq], by rw [Add_replicas, h.replicas_eq], hmem, ?_⟩
  intro x hx
  rw [Add_hashMap]
  by_cases hnew : ∃ s ∈ ks, x ∈ m.virtualHashes s
  · obtain ⟨s, hs, hxs, heq⟩ := foldl_addKey_hashMap_of_mem ks m x hnew
    rw [hvh] at hxs
    exact ⟨s, List.mem_append_right _ hs, hxs, heq⟩
  · rw [foldl_addKey_hashMap_of_not_mem ks m x (fun s hs hxs => hnew ⟨s, hs, hxs⟩)]
    have hold : x ∈ m.keys := by
      rcases (mem_Add_keys m ks x).1 hx with h1 | h1
      · exact h1
      · exact absurd h1 hnew
    obtain ⟨s, hs, hxs, heq⟩ := h.owner x hold
    exact ⟨s, List.mem_append_left _ hs, hxs, heq⟩

theorem Tracks.of_addCalls {m0 m : Map} {ids : List GoString} (h : Tracks m0 ids m)
    (calls : List (List GoString)) : Tracks m0 (ids ++ calls.flatten) (m.addCalls calls) := by
  induction calls generalizing m ids with
  | nil => simpa [Map.addCalls] using h
  | cons ks calls ih =>
    have := ih (h.of_Add ks)
    simpa [Map.addCalls, List.append_assoc] using this

theorem tracks_addCalls (replicas : Int) (fn : Option Hash) (calls : List (List GoString)) :
    Tracks (New replicas fn) calls.flatten ((New replicas fn).addCalls calls) := by
  simpa using (Tracks.of_New replicas fn).of_addCalls calls

theorem virtualHashes_ne_nil (m : Map) (h : 1 ≤ m.replicas) (s : GoString) :
    m.virtualHashes s ≠ [] := by
  intro hnil
  have hlen := congrArg List.length hnil
  simp [virtualHashes] at hlen
  omega

theorem Add_single_hashMap (m : Map) (n : GoString) (x : Int) :
    (m.Add [n]).hashMap x = if x ∈ m.virtualHashes n then some n else m.hashMap x :=
  addKey_hashMap m n x

theorem Add_single_Get_of_old (m : Map) (hs : m.keys.Sorted (· ≤ ·)) (n key : GoString)
    {v : Int} (hv : IsSuccessor (m.Add [n]).keys ((m.Add [n]).hashInt key) v)
    (hnew : v ∉ m.virtualHashes n) : (m.Add [n]).Get key = m.Get key := by
  have hsub : ∀ x, x ∈ m.keys → x ∈ (m.Add [n]).keys :=
    fun x hx => (mem_Add_keys m [n] x).2 (Or.inl hx)
  have hvold : v ∈ m.keys := by
    rcases (mem_Add_keys m [n] v).1 hv.1 with h | ⟨s, hs1, hx⟩
    · exact h
    · rw [List.mem_singleton.1 hs1] at hx
      exact absurd hx hnew
  have hv0 : IsSuccessor m.keys (m.hashInt key) v := by
    rw [hashInt_Add] at hv
    refine ⟨hvold, ?_⟩
    rcases hv.2 with ⟨h1, h2⟩ | ⟨h1, h2⟩
    · exact Or.inl ⟨h1, fun u hu => h2 u (hsub u hu)⟩
    · exact Or.inr ⟨fun u hu => h1 u (hsub u hu), fun u hu => h2 u (hsub u hu)⟩
  rw [Get_eq_of_successor (m.Add [n]) key (sorted_Add_keys m [n]) hv,
    Get_eq_of_successor m key hs hv0, Add_single_hashMap, if_neg hnew]

end Map

/-! ## The ring: lookup -/

/-- C1: on a ring produced by `New` and `Add` calls whose hash sequence is not empty,
`Get(key)` returns the node id that the mapping holds for the least value `v` of the sequence
with `v ≥ hash(key)`; when no value of the sequence is `≥ hash(key)` it returns the node id
mapped to the least value of the sequence.  In either case such a value exists and the
mapping holds an entry for it. -/
theorem Get_returns_successor_owner (replicas : Int) (fn : Option Hash)
    (calls : List (List GoString)) (key : GoString)
    (hne : ((Map.New replicas fn).addCalls calls).keys ≠ []) :
    (∀ v ∈ ((Map.New replicas fn).addCalls calls).keys,
        ((Map.New replicas fn).addCalls calls).hashInt key ≤ v →
        (∀ u ∈ ((Map.New replicas fn).addCalls calls).keys,
          ((Map.New replicas fn).addCalls calls).hashInt key ≤ u → v ≤ u) →
        ∃ id, ((Map.New replicas fn).addCalls calls).hashMap v = some id ∧
          ((Map.New replicas fn).addCalls calls).Get key = some id) ∧
    ((∀ u ∈ ((Map.New replicas fn).addCalls calls).keys,
          u < ((Map.New replicas fn).addCalls calls).hashInt key) →
        ∀ v ∈ ((Map.New replicas fn).addCalls calls).keys,
        (∀ u ∈ ((Map.New replicas fn).addCalls calls).keys, v ≤ u) →
        ∃ id, ((Map.New replicas fn).addCalls calls).hashMap v = some id ∧
          ((Map.New replicas fn).addCalls calls).Get key = some id) ∧
    (∃ v, Map.IsSuccessor ((Map.New replicas fn).addCalls calls).keys
        (((Map.New replicas fn).addCalls calls).hashInt key) v) := by
  have hr : ((Map.New replicas fn).addCalls calls).Reachable :=
    (Map.Reachable.new replicas fn).closed_addCalls calls
  generalize (Map.New replicas fn).addCalls calls = m at hne hr
  have key_fact : ∀ v, Map.IsSuccessor m.keys (m.hashInt key) v →
      ∃ id, m.hashMap v = some id ∧ m.Get key = some id := by
    intro v hv
    obtain ⟨id, hid⟩ := Option.isSome_iff_exists.1 ((hr.mem_keys_iff v).1 hv.1)
    refine ⟨id, hid, ?_⟩
    rw [Map.Get_eq_of_successor m key hr.sorted hv, hid]
    rfl
  refine ⟨?_, ?_, ?_⟩
  · intro v hv hge hmin
    exact key_fact v ⟨hv, Or.inl ⟨hge, hmin⟩⟩
  · intro hall v hv hmin
    exact key_fact v ⟨hv, Or.inr ⟨hall, hmin⟩⟩
  · obtain ⟨v, hv, _⟩ := Map.Get_of_sorted m key hr.sorted hne
    exact ⟨v, hv⟩

/-- Instance of C1: the ring with two replicas of the nodes `a` and `b` under CRC-32, key `k`. -/
theorem Get_returns_successor_owner_witness :
    ((Map.New 2 none).addCalls [[lit "a", lit "b"]]).keys ≠ [] ∧
    ∃ id, ((Map.New 2 none).addCalls [[lit "a", lit "b"]]).hashMap 607655225 = some id ∧
      ((Map.New 2 none).addCalls [[lit "a", lit "b"]]).Get (lit "k") = some id :=
  ⟨by decide,
   (Get_returns_successor_owner 2 none [[lit "a", lit "b"]] (lit "k") (by decide)).1
     607655225 (by decide) (by decide) (by decide)⟩

/-- C2: on a ring made by `New`, with any replication factor and any hash function, to which
nothing was added, `Get` returns the empty string for every key (and does not fail). -/
theorem Get_New_eq_empty (replicas : Int) (fn : Option Hash) (key : GoString) :
    (Map.New replicas fn).Get key = some (lit "") := rfl

/-- C3, as stated, fails: with replication factor `0` the call `Add("a")` inserts no
virtual node, and `Get("k")` still returns the empty string, which is not an id that was
added. -/
theorem Get_coverage_fails_without_replicas :
    [lit "a"] ≠ [] ∧
    ((Map.New 0 none).addCalls [[lit "a"]]).Get (lit "k") = some (lit "") ∧
    ¬ ∃ id ∈ [lit "a"], ((Map.New 0 none).addCalls [[lit "a"]]).Get (lit "k") = some id := by
  decide

/-- C3, amended: on a ring with replication factor at least `1` (and any hash function) to
which at least one node id has been added by `Add` calls, `Get` returns, for every key, one of
the node ids that were added. -/
theorem Get_mem_added (replicas : Int) (fn : Option Hash) (calls : List (List GoString))
    (key : GoString) (hrep : 1 ≤ replicas) (hadd : calls.flatten ≠ []) :
    ∃ id ∈ calls.flatten, ((Map.New replicas fn).addCalls calls).Get key = some id := by
  have ht := Map.tracks_addCalls replicas fn calls
  have hr : ((Map.New replicas fn).addCalls calls).Reachable :=
    (Map.Reachable.new replicas fn).closed_addCalls calls
  obtain ⟨s, hs⟩ := List.exists_mem_of_ne_nil _ hadd
  obtain ⟨x, hx⟩ := List.exists_mem_of_ne_nil _
    (Map.virtualHashes_ne_nil (Map.New replicas fn) hrep s)
  have hne : ((Map.New replicas fn).addCalls calls).keys ≠ [] :=
    List.ne_nil_of_mem ((ht.mem_keys x).2 ⟨s, hs, hx⟩)
  obtain ⟨v, hv, hget⟩ := Map.Get_of_sorted _ key hr.sorted hne
  obtain ⟨id, hid, _, hmap⟩ := ht.owner v hv.1
  exact ⟨id, hid, by rw [hget, hmap]; rfl⟩

/-- Instance of amended C3: two replicas, nodes `a` and `b` added in one call, key `k`. -/
theorem Get_mem_added_witness :
    (1 : Int) ≤ 2 ∧ [[lit "a", lit "b"]].flatten ≠ [] ∧
    ∃ id ∈ [[lit "a", lit "b"]].flatten,
      ((Map.New 2 none).addCalls [[lit "a", lit "b"]]).Get (lit "k") = some id :=
  ⟨by decide, by decide,
   Get_mem_added 2 none [[lit "a", lit "b"]] (lit "k") (by decide) (by decide)⟩

/-! ## The ring: adding nodes -/

/-- C4: for a ring produced by `New` and `Add` calls, a node id `n` and a key `k`, after
`Add(n)` the owner `Get(k)` is the owner before the call or `n`; and when the first
virtual-node hash value at or after `hash(k)` (with wrap-around) of the ring after the call
is not one of the values that `Add(n)` inserted, `Get(k)` is what it was before the call. -/
theorem Add_minimal_disruption (replicas : Int) (fn : Option Hash)
    (calls : List (List GoString)) (n key : GoString) :
    ((((Map.New replicas fn).addCalls calls).Add [n]).Get key
        = ((Map.New replicas fn).addCalls calls).Get key ∨
      (((Map.New replicas fn).addCalls calls).Add [n]).Get key = some n) ∧
    (∀ v, Map.IsSuccessor (((Map.New replicas fn).addCalls calls).Add [n]).keys
        ((((Map.New replicas fn).addCalls calls).Add [n]).hashInt key) v →
      v ∉ ((Map.New replicas fn).addCalls calls).virtualHashes n →
      (((Map.New replicas fn).addCalls calls).Add [n]).Get key
        = ((Map.New replicas fn).addCalls calls).Get key) := by
  have hr : ((Map.New replicas fn).addCalls calls).Reachable :=
    (Map.Reachable.new replicas fn).closed_addCalls calls
  generalize (Map.New replicas fn).addCalls calls = m at hr
  have part2 : ∀ v, Map.IsSuccessor (m.Add [n]).keys ((m.Add [n]).hashInt key) v →
      v ∉ m.virtualHashes n → (m.Add [n]).Get key = m.Get key :=
    fun v hv hnew => Map.Add_single_Get_of_old m hr.sorted n key hv hnew
  refine ⟨?_, part2⟩
  by_cases hnil : (m.Add [n]).keys = []
  · left
    have hold : m.keys = [] := by
      apply List.eq_nil_iff_forall_not_mem.2
      intro x hx
      have := (Map.mem_Add_keys m [n] x).2 (Or.inl hx)
      rw [hnil] at this
      cases this
    rw [Map.Get_of_keys_nil _ key hnil, Map.Get_of_keys_nil _ key hold]
  · obtain ⟨v, hv, hget⟩ := Map.Get_of_sorted (m.Add [n]) key (Map.sorted_Add_keys m [n]) hnil
    by_cases hnew : v ∈ m.virtualHashes n
    · right
      rw [hget, Map.Add_single_hashMap, if_pos hnew]
      rfl
    · exact Or.inl (part2 v hv hnew)

/-- Instance of C4: on the ring holding node `a` (two replicas, CRC-32), the key `key`
hashes to 2324736937, whose successor 2754246082 is a virtual node of `a` and is not
inserted by `Add("b")`; the owner of `key` is the same before and after that call. -/
theorem Add_minimal_disruption_witness :
    Map.IsSuccessor (((Map.New 2 none).addCalls [[lit "a"]]).Add [lit "b"]).keys
      ((((Map.New 2 none).addCalls [[lit "a"]]).Add [lit "b"]).hashInt (lit "key")) 2754246082 ∧
    2754246082 ∉ ((Map.New 2 none).addCalls [[lit "a"]]).virtualHashes (lit "b") ∧
    (((Map.New 2 none).addCalls [[lit "a"]]).Add [lit "b"]).Get (lit "key")
      = ((Map.New 2 none).addCalls [[lit "a"]]).Get (lit "key") :=
  ⟨by decide, by decide,
   (Add_minimal_disruption 2 none [[lit "a"]] (lit "b") (lit "key")).2 2754246082
     (by decide) (by decide)⟩

/-- C5, as stated, fails: with one replica and the hash function that returns the length of
its input, the virtual nodes of `a` and `b` collide, the mapping keeps the id written last,
and the two orders of adding the same two ids give different owners for the key `k`. -/
theorem Get_depends_on_add_order :
    [lit "a", lit "b"].Nodup ∧
    [[lit "a"], [lit "b"]].flatten.Perm [[lit "b"], [lit "a"]].flatten ∧
    ((Map.New 1 (some List.length)).addCalls [[lit "a"], [lit "b"]]).Get (lit "k")
      = some (lit "b") ∧
    ((Map.New 1 (some List.length)).addCalls [[lit "b"], [lit "a"]]).Get (lit "k")
      = some (lit "a") ∧
    ((Map.New 1 (some List.length)).addCalls [[lit "a"], [lit "b"]]).Get (lit "k")
      ≠ ((Map.New 1 (some List.length)).addCalls [[lit "b"], [lit "a"]]).Get (lit "k") := by
  decide

/-- C5, amended: two rings made by `New` with the same replication factor and hash function,
to which the same set of node ids was added (each id once, in any order and grouping into
`Add` calls), give the same owner for every key, provided no two different ids of the set
have a virtual-node hash value in common; and `Get` is a function of the ring and the key, so
repeating a call on one ring repeats its result. -/
theorem Get_deterministic (replicas : Int) (fn : Option Hash)
    (calls1 calls2 : List (List GoString)) (key : GoString)
    (_hnodup : calls1.flatten.Nodup)
    (hperm : calls1.flatten.Perm calls2.flatten)
    (hinj : ∀ s ∈ calls1.flatten, ∀ t ∈ calls1.flatten,
      ∀ x ∈ (Map.New replicas fn).virtualHashes s, x ∈ (Map.New replicas fn).virtualHashes t →
      s = t) :
    ((Map.New replicas fn).addCalls calls1).Get key
      = ((Map.New replicas fn).addCalls calls2).Get key ∧
    (∀ first second : Option GoString,
      first = ((Map.New replicas fn).addCalls calls1).Get key →
      second = ((Map.New replicas fn).addCalls calls1).Get key → first = second) := by
  refine ⟨?_, fun _ _ hfirst hsecond => hfirst.trans hsecond.symm⟩
  have hset : ∀ s, s ∈ calls1.flatten ↔ s ∈ calls2.flatten := fun s => hperm.mem_iff
  have h1 := Map.tracks_addCalls replicas fn calls1
  have h2 := Map.tracks_addCalls replicas fn calls2
  have hk : ∀ x, x ∈ ((Map.New replicas fn).addCalls calls1).keys ↔
      x ∈ ((Map.New replicas fn).addCalls calls2).keys := by
    intro x
    rw [h1.mem_keys, h2.mem_keys]
    constructor
    · rintro ⟨s, hs, hx⟩; exact ⟨s, (hset s).1 hs, hx⟩
    · rintro ⟨s, hs, hx⟩; exact ⟨s, (hset s).2 hs, hx⟩
  apply Map.Get_congr _ _ key
    ((Map.Reachable.new replicas fn).closed_addCalls calls1).sorted
    ((Map.Reachable.new replicas fn).closed_addCalls calls2).sorted
    (by rw [h1.hash_eq, h2.hash_eq]) hk
  intro x hx
  obtain ⟨s, hs, hxs, hms⟩ := h1.owner x hx
  obtain ⟨t, ht, hxt, hmt⟩ := h2.owner x ((hk x).1 hx)
  rw [hms, hmt, hinj s hs t ((hset t).2 ht) x hxs hxt]

/-- Instance of amended C5: nodes `a` and `b` with two replicas under CRC-32, added in one
call in one order and in two calls in the other order. -/
theorem Get_deterministic_witness :
    [[lit "a", lit "b"]].flatten.Nodup ∧
    [[lit "a", lit "b"]].flatten.Perm [[lit "b"], [lit "a"]].flatten ∧
    (∀ s ∈ [[lit "a", lit "b"]].flatten, ∀ t ∈ [[lit "a", lit "b"]].flatten,
      ∀ x ∈ (Map.New 2 none).virtualHashes s, x ∈ (Map.New 2 none).virtualHashes t → s = t) ∧
    ((Map.New 2 none).addCalls [[lit "a", lit "b"]]).Get (lit "k")
      = ((Map.New 2 none).addCalls [[lit "b"], [lit "a"]]).Get (lit "k") :=
  ⟨by decide, by decide, by decide,
   (Get_deterministic 2 none [[lit "a", lit "b"]] [[lit "b"], [lit "a"]] (lit "k")
     (by decide) (by decide) (by decide)).1⟩

/-- C6: in every ring state that `New` followed by any sequence of `Add` calls produces, the
hash sequence is sorted in ascending (non-decreasing) order. -/
theorem keys_sorted (replicas : Int) (fn : Option Hash) (calls : List (List GoString)) :
    ((Map.New replicas fn).addCalls calls).keys.Sorted (· ≤ ·) :=
  ((Map.Reachable.new replicas fn).closed_addCalls calls).sorted

/-- C7: in every ring state that `New` followed by any sequence of `Add` calls produces, a
value occurs in the hash sequence exactly when the mapping has an entry for it. -/
theorem keys_eq_hashMap_domain (replicas : Int) (fn : Option Hash)
    (calls : List (List GoString)) (h : Int) :
    h ∈ ((Map.New replicas fn).addCalls calls).keys ↔
      ∃ id, ((Map.New replicas fn).addCalls calls).hashMap h = some id := by
  rw [((Map.Reachable.new replicas fn).closed_addCalls calls).mem_keys_iff h]
  exact Option.isSome_iff_exists

/-- Length of a concatenation of lists that all have length `r`. -/
theorem length_flatMap_const {α β : Type} (f : α → List β) (r : Nat) (l : List α)
    (h : ∀ a ∈ l, (f a).length = r) : (l.flatMap f).length = r * l.length := by
  induction l with
  | nil => simp
  | cons a l ih =>
    rw [List.flatMap_cons, List.length_append, h a (List.mem_cons_self _ _),
      ih (fun b hb => h b (List.mem_cons_of_mem _ hb)), List.length_cons, Nat.mul_succ,
      Nat.add_comm]

/-- C8: one call `Add(ids...)` on a ring with replication factor `r ≥ 0` makes the hash
sequence longer by exactly `r` times the number of ids, the new sequence being a
rearrangement of the old one followed by the values `hash(strconv.Itoa(i) + id)` for
`i = 0, ..., r-1` of each id; the same id added twice is not deduplicated: after two `Add`
calls with one id on a new ring the sequence has `2 * r` entries and each virtual-node hash
value of the id occurs at least twice. -/
theorem Add_keys_growth (m : Map) (r : Nat) (hr : m.replicas = (r : Int))
    (ids : List GoString) :
    (m.Add ids).keys.length = m.keys.length + r * ids.length ∧
    (m.Add ids).keys.Perm (m.keys ++ ids.flatMap (fun id =>
      (List.range r).map (fun i => m.hashInt (Itoa (Int.ofNat i) ++ id)))) ∧
    (∀ (fn : Option Hash) (id : GoString),
      (((Map.New (r : Int) fn).Add [id]).Add [id]).keys.length = 2 * r ∧
      ∀ i, i < r → 2 ≤ (((Map.New (r : Int) fn).Add [id]).Add [id]).keys.count
        ((Map.New (r : Int) fn).hashInt (Itoa (Int.ofNat i) ++ id))) := by
  have hvh : ∀ (m1 : Map), m1.replicas = (r : Int) → ∀ id, m1.virtualHashes id
      = (List.range r).map (fun i => m1.hashInt (Itoa (Int.ofNat i) ++ id)) := by
    intro m1 h1 id
    simp [Map.virtualHashes, h1]
  have hperm : ∀ (m1 : Map) (l : List GoString),
      (m1.Add l).keys.Perm (m1.keys ++ l.flatMap m1.virtualHashes) := by
    intro m1 l
    rw [Map.Add_keys]
    exact List.perm_insertionSort _ _
  have hlen : ∀ (m1 : Map), m1.replicas = (r : Int) → ∀ l : List GoString,
      (m1.Add l).keys.length = m1.keys.length + r * l.length := by
    intro m1 h1 l
    rw [(hperm m1 l).length_eq, List.length_append,
      length_flatMap_const m1.virtualHashes r l (fun a _ => by rw [hvh m1 h1]; simp)]
  refine ⟨hlen m hr ids, ?_, ?_⟩
  · have : m.virtualHashes = fun id =>
        (List.range r).map (fun i => m.hashInt (Itoa (Int.ofNat i) ++ id)) :=
      funext (hvh m hr)
    rw [← this]
    exact hperm m ids
  · intro fn id
    have h0 : (Map.New (r : Int) fn).replicas = (r : Int) := rfl
    have h1 : ((Map.New (r : Int) fn).Add [id]).replicas = (r : Int) := by
      rw [Map.Add_replicas]; rfl
    refine ⟨?_, ?_⟩
    · rw [hlen _ h1, hlen _ h0]
      simp [Map.New]
      omega
    · intro i hi
      have hmem : (Map.New (r : Int) fn).hashInt (Itoa (Int.ofNat i) ++ id)
          ∈ (Map.New (r : Int) fn).virtualHashes id := by
        rw [hvh _ h0]
        exact List.mem_map.2 ⟨i, List.mem_range.2 hi, rfl⟩
      have hc := List.count_pos_iff.2 hmem
      rw [(hperm _ [id]).count_eq, List.count_append, (hperm _ [id]).count_eq,
        List.count_append, Map.virtualHashes_Add]
      simp only [List.flatMap_cons, List.flatMap_nil, List.append_nil]
      omega

/-- Instance of C8: three replicas under CRC-32, the ids `a` and `b` added to a new ring. -/
theorem Add_keys_growth_witness :
    (Map.New 3 none).replicas = ((3 : Nat) : Int) ∧
    ((Map.New 3 none).Add [lit "a", lit "b"]).keys.length = (Map.New 3 none).keys.length + 3 * 2 :=
  ⟨rfl, (Add_keys_growth (Map.New 3 none) 3 rfl [lit "a", lit "b"]).1⟩

/-! ## The cache group -/

/-- C9: for every store, group and environment, `Get("")` returns the empty `ByteView` and
the error `key is required`, makes no call to the getter or to the store, and leaves the
group (with its store) and the environment of the getter as they were. -/
theorem Get_empty_key_rejected {σ γ : Type} (C : cache σ) (g : Group σ γ) (env : γ) :
    (Group.Get C g (lit "") env).value = ⟨[]⟩ ∧
    (Group.Get C g (lit "") env).err = some ⟨"key is required"⟩ ∧
    (Group.Get C g (lit "") env).calls = [] ∧
    (Group.Get C g (lit "") env).group = g ∧
    (Group.Get C g (lit "") env).env = env :=
  ⟨rfl, rfl, rfl, rfl, rfl⟩

/-- C10: for a non-empty key for which the store reports a hit with value `v`, `Get(key)`
returns `v` and a nil error; the calls it makes are the one `get` of the store and the log
line, so the getter is not invoked and the store is not added to; the group afterwards
differs from the group before at most in the state that the store's `get` left. -/
theorem Get_hit {σ γ : Type} (C : cache σ) (g : Group σ γ) (key : GoString) (env : γ)
    (v : ByteView) (s1 : σ) (hkey : key ≠ lit "")
    (hhit : C.get g.mainCache key = ((v, true), s1)) :
    (Group.Get C g key env).value = v ∧
    (Group.Get C g key env).err = none ∧
    (Group.Get C g key env).calls = [Call.cacheGet key, Call.logPrintln "[D_Cache] hit"] ∧
    (∀ k, Call.getterGet k ∉ (Group.Get C g key env).calls) ∧
    (∀ k w, Call.cacheAdd k w ∉ (Group.Get C g key env).calls) ∧
    (Group.Get C g key env).group = { g with mainCache := s1 } ∧
    (Group.Get C g key env).env = env := by
  have hk : ¬ key = [] := hkey
  have hget : Group.Get C g key env =
      { value := v, err := none, group := { g with mainCache := s1 }, env := env,
        calls := [Call.cacheGet key, Call.logPrintln "[D_Cache] hit"] } := by
    unfold Group.Get
    rw [if_neg hk, hhit]
  rw [hget]
  refine ⟨rfl, rfl, rfl, ?_, ?_, rfl, rfl⟩
  · intro k hmem
    simp at hmem
  · intro k w hmem
    simp at hmem

/-- Instance of C10: the key `Tom` is in the store with value `630`. -/
theorem Get_hit_witness :
    lit "Tom" ≠ lit "" ∧
    listCache.get [(lit "Tom", ⟨lit "630"⟩)] (lit "Tom")
      = ((⟨lit "630"⟩, true), [(lit "Tom", ⟨lit "630"⟩)]) ∧
    (Group.Get listCache
      ({ name := lit "scores", getter := testGetter,
         mainCache := [(lit "Tom", ⟨lit "630"⟩)] } : Group _ _)
      (lit "Tom") (fun _ => 0)).value = ⟨lit "630"⟩ :=
  ⟨by decide, by decide,
   (Get_hit listCache
      { name := lit "scores", getter := testGetter, mainCache := [(lit "Tom", ⟨lit "630"⟩)] }
      (lit "Tom") (fun _ => 0) ⟨lit "630"⟩ [(lit "Tom", ⟨lit "630"⟩)]
      (by decide) (by decide)).1⟩

/-- Function `cloneBytes` returns the contents it is given. -/
theorem cloneBytes_eq (b : List UInt8) : cloneBytes b = b := by
  simp [cloneBytes, copy, make]

/-- On a miss of the store, `Get` is `getLocally` run after the store's `get`. -/
theorem Group.Get_of_miss {σ γ : Type} (C : cache σ) (g : Group σ γ) (key : GoString) (env : γ)
    (v0 : ByteView) (s1 : σ) (hkey : key ≠ lit "")
    (hmiss : C.get g.mainCache key = ((v0, false), s1)) :
    Group.Get C g key env =
      { Group.getLocally C { g with mainCache := s1 } key env with
        calls := Call.cacheGet key ::
          (Group.getLocally C { g with mainCache := s1 } key env).calls } := by
  have hk : ¬ key = [] := hkey
  unfold Group.Get
  rw [if_neg hk, hmiss]
  rfl

/-- Outcome of `Get` on a hit of the store. -/
theorem Group.Get_of_hit {σ γ : Type} (C : cache σ) (g : Group σ γ) (key : GoString) (env : γ)
    (v : ByteView) (s1 : σ) (hkey : key ≠ lit "")
    (hhit : C.get g.mainCache key = ((v, true), s1)) :
    Group.Get C g key env =
      { value := v, err := none, group := { g with mainCache := s1 }, env := env,
        calls := [Call.cacheGet key, Call.logPrintln "[D_Cache] hit"] } := by
  have hk : ¬ key = [] := hkey
  unfold Group.Get
  rw [if_neg hk, hhit]

/-- Outcome of `Get` on a miss of the store followed by a successful fetch. -/
theorem Group.Get_of_fetch {σ γ : Type} (C : cache σ) (g : Group σ γ) (key : GoString)
    (env : γ) (v0 : ByteView) (s1 : σ) (bytes : List UInt8) (env1 : γ) (hkey : key ≠ lit "")
    (hmiss : C.get g.mainCache key = ((v0, false), s1))
    (hfetch : g.getter env key = ((bytes, none), env1)) :
    Group.Get C g key env =
      { value := ⟨bytes⟩, err := none,
        group := { g with mainCache := C.add s1 key ⟨bytes⟩ }, env := env1,
        calls := [Call.cacheGet key, Call.getterGet key, Call.cacheAdd key ⟨bytes⟩] } := by
  rw [Group.Get_of_miss C g key env v0 s1 hkey hmiss]
  simp only [Group.getLocally, hfetch, Group.populateCache, cloneBytes_eq]

/-- C11: for a non-empty key that the store reports as missing, when the getter returns
`(bytes, nil)`, `Get(key)` returns a nil error and a view whose payload is `bytes`
(`String()` is `string(bytes)`, `Len()` is `len(bytes)`); the calls it makes are the store's
`get`, one getter call with that key, and one `add(key, view)` with the returned view; the
store afterwards is the result of that `add`. -/
theorem Get_miss_fetch {σ γ : Type} (C : cache σ) (g : Group σ γ) (key : GoString) (env : γ)
    (v0 : ByteView) (s1 : σ) (bytes : List UInt8) (env1 : γ) (hkey : key ≠ lit "")
    (hmiss : C.get g.mainCache key = ((v0, false), s1))
    (hfetch : g.getter env key = ((bytes, none), env1)) :
    (Group.Get C g key env).err = none ∧
    (Group.Get C g key env).value.b = bytes ∧
    (Group.Get C g key env).value.String = bytes ∧
    (Group.Get C g key env).value.Len = bytes.length ∧
    (Group.Get C g key env).calls = [Call.cacheGet key, Call.getterGet key,
      Call.cacheAdd key (Group.Get C g key env).value] ∧
    (Group.Get C g key env).calls.count (Call.getterGet key) = 1 ∧
    (∀ k, Call.getterGet k ∈ (Group.Get C g key env).calls → k = key) ∧
    (∀ k w, Call.cacheAdd k w ∈ (Group.Get C g key env).calls →
      k = key ∧ w = (Group.Get C g key env).value) ∧
    (Group.Get C g key env).group.mainCache = C.add s1 key (Group.Get C g key env).value ∧
    (Group.Get C g key env).env = env1 := by
  rw [Group.Get_of_fetch C g key env v0 s1 bytes env1 hkey hmiss hfetch]
  refine ⟨rfl, rfl, rfl, rfl, rfl, ?_, ?_, ?_, rfl, rfl⟩
  · simp [List.count_cons]
  · intro k hmem
    simpa using hmem
  · intro k w hmem
    simpa using hmem

/-- Instance of C11: the test getter and an empty store, key `Tom`. -/
theorem Get_miss_fetch_witness :
    lit "Tom" ≠ lit "" ∧
    listCache.get [] (lit "Tom") = ((⟨[]⟩, false), []) ∧
    testGetter (fun _ => 0) (lit "Tom") = ((lit "630", none),
      fun k => if k = lit "Tom" then 0 + 1 else 0) ∧
    (Group.Get listCache
      ({ name := lit "scores", getter := testGetter, mainCache := [] } : Group _ _)
      (lit "Tom") (fun _ => 0)).value.String = lit "630" :=
  ⟨by decide, by decide, rfl,
   (Get_miss_fetch listCache { name := lit "scores", getter := testGetter, mainCache := [] }
      (lit "Tom") (fun _ => 0) ⟨[]⟩ [] (lit "630") (fun k => if k = lit "Tom" then 0 + 1 else 0)
      (by decide) (by decide) rfl).2.2.1⟩

/-- C12: for a non-empty key that the store reports as missing, when the getter returns a
non-nil error `e`, `Get(key)` returns the empty `ByteView` and that error `e`; the calls it
makes are the store's `get` and one getter call, so nothing is added to the store, whose
state is the one its own `get` left (the group is as before when that `get` changes
nothing). -/
theorem Get_miss_error {σ γ : Type} (C : cache σ) (g : Group σ γ) (key : GoString) (env : γ)
    (v0 : ByteView) (s1 : σ) (bytes : List UInt8) (e : GoError) (env1 : γ)
    (hkey : key ≠ lit "") (hmiss : C.get g.mainCache key = ((v0, false), s1))
    (hfail : g.getter env key = ((bytes, some e), env1)) :
    (Group.Get C g key env).value = ⟨[]⟩ ∧
    (Group.Get C g key env).err = some e ∧
    (Group.Get C g key env).calls = [Call.cacheGet key, Call.getterGet key] ∧
    (Group.Get C g key env).calls.count (Call.getterGet key) = 1 ∧
    (∀ k w, Call.cacheAdd k w ∉ (Group.Get C g key env).calls) ∧
    (Group.Get C g key env).group = { g with mainCache := s1 } ∧
    (s1 = g.mainCache → (Group.Get C g key env).group = g) ∧
    (Group.Get C g key env).env = env1 := by
  have hget : Group.Get C g key env =
      { value := ⟨[]⟩, err := some e, group := { g with mainCache := s1 }, env := env1,
        calls := [Call.cacheGet key, Call.getterGet key] } := by
    rw [Group.Get_of_miss C g key env v0 s1 hkey hmiss]
    simp only [Group.getLocally, hfail]
  rw [hget]
  refine ⟨rfl, rfl, rfl, ?_, ?_, rfl, ?_, rfl⟩
  · simp [List.count_cons]
  · intro k w hmem
    simp at hmem
  · intro hs
    rw [hs]

/-- Instance of C12: the test getter and an empty store, key `unknown`. -/
theorem Get_miss_error_witness :
    lit "unknown" ≠ lit "" ∧
    listCache.get [] (lit "unknown") = ((⟨[]⟩, false), []) ∧
    (Group.Get listCache
      ({ name := lit "scores", getter := testGetter, mainCache := [] } : Group _ _)
      (lit "unknown") (fun _ => 0)).err = some ⟨"not exist"⟩ :=
  ⟨by decide, by decide,
   (Get_miss_error listCache { name := lit "scores", getter := testGetter, mainCache := [] }
      (lit "unknown") (fun _ => 0) ⟨[]⟩ [] [] ⟨"not exist"⟩ (fun _ => 0)
      (by decide) (by decide) rfl).2.1⟩

/-- C13: for a group whose store reports the non-empty key `k` as missing, whose getter
returns the bytes `b` without error for `k`, and whose store retains the entry that the first
call adds (its `get(k)` after that `add(k, v)` reports a hit with `v`), the first `Get(k)`
returns a view with `String()` equal to `string(b)` and calls the getter once; a second
`Get(k)` returns a view with the same `String()` and does not call the getter, so the getter
is called once in all. -/
theorem Get_twice {σ γ : Type} (C : cache σ) (g : Group σ γ) (k : GoString) (env : γ)
    (v0 : ByteView) (s1 : σ) (b : List UInt8) (env1 : γ) (hkey : k ≠ lit "")
    (hmiss : C.get g.mainCache k = ((v0, false), s1))
    (hfetch : g.getter env k = ((b, none), env1))
    (hretain : (C.get (C.add s1 k ⟨b⟩) k).1 = (⟨b⟩, true)) :
    (Group.Get C g k env).err = none ∧
    (Group.Get C g k env).value.String = b ∧
    (Group.Get C g k env).calls.count (Call.getterGet k) = 1 ∧
    (Group.Get C (Group.Get C g k env).group k (Group.Get C g k env).env).err = none ∧
    (Group.Get C (Group.Get C g k env).group k (Group.Get C g k env).env).value.String = b ∧
    (∀ j, Call.getterGet j ∉
      (Group.Get C (Group.Get C g k env).group k (Group.Get C g k env).env).calls) ∧
    ((Group.Get C g k env).calls ++
      (Group.Get C (Group.Get C g k env).group k (Group.Get C g k env).env).calls).count
        (Call.getterGet k) = 1 ∧
    (Group.Get C (Group.Get C g k env).group k (Group.Get C g k env).env).env = env1 := by
  have h1 := Group.Get_of_fetch C g k env v0 s1 b env1 hkey hmiss hfetch
  have hhit : C.get (C.add s1 k ⟨b⟩) k = ((⟨b⟩, true), (C.get (C.add s1 k ⟨b⟩) k).2) :=
    Prod.ext hretain rfl
  have h2 := Group.Get_of_hit C { g with mainCache := C.add s1 k ⟨b⟩ } k env1 ⟨b⟩ _ hkey hhit
  rw [h1]
  dsimp only
  rw [h2]
  refine ⟨rfl, rfl, ?_, rfl, rfl, ?_, ?_, rfl⟩
  · simp [List.count_cons]
  · intro j hmem
    simp at hmem
  · simp [List.count_cons]

/-- Instance of C13, the run of `TestGet` for the key `Tom`: the store misses `Tom`, the
getter returns `630`, the store reports a hit with that view after the `add`; both calls
return `630` and `loadCounts["Tom"]` is 1 after the second call. -/
theorem Get_twice_witness :
    lit "Tom" ≠ lit "" ∧
    listCache.get (listCache.new 2048) (lit "Tom") = ((⟨[]⟩, false), []) ∧
    testGetter (fun _ => 0) (lit "Tom")
      = ((lit "630", none), fun k => if k = lit "Tom" then 0 + 1 else 0) ∧
    (listCache.get (listCache.add [] (lit "Tom") ⟨lit "630"⟩) (lit "Tom")).1
      = (⟨lit "630"⟩, true) ∧
    (Group.Get listCache (Group.Get listCache
        ({ name := lit "scores", getter := testGetter, mainCache := listCache.new 2048 } :
          Group _ _) (lit "Tom") (fun _ => 0)).group (lit "Tom")
      (Group.Get listCache
        ({ name := lit "scores", getter := testGetter, mainCache := listCache.new 2048 } :
          Group _ _) (lit "Tom") (fun _ => 0)).env).value.String = lit "630" ∧
    (Group.Get listCache (Group.Get listCache
        ({ name := lit "scores", getter := testGetter, mainCache := listCache.new 2048 } :
          Group _ _) (lit "Tom") (fun _ => 0)).group (lit "Tom")
      (Group.Get listCache
        ({ name := lit "scores", getter := testGetter, mainCache := listCache.new 2048 } :
          Group _ _) (lit "Tom") (fun _ => 0)).env).env (lit "Tom") = 1 :=
  ⟨by decide, by decide, rfl, by decide,
   (Get_twice listCache
      { name := lit "scores", getter := testGetter, mainCache := listCache.new 2048 }
      (lit "Tom") (fun _ => 0) ⟨[]⟩ [] (lit "630") (fun k => if k = lit "Tom" then 0 + 1 else 0)
      (by decide) (by decide) rfl (by decide)).2.2.2.2.1,
   by decide⟩

/-! ## The registry -/

/-- A name that no call of a sequence of `NewGroup` calls registers is not in `groups`. -/
theorem Registry.foldl_groups_none {σ γ : Type} (C : cache σ)
    (calls : List (GoString × Int × Option (Getter γ))) (r : Registry σ γ) (name : GoString)
    (hr : r.groups name = none) (hname : ∀ c ∈ calls, c.1 ≠ name) :
    (calls.foldl (fun r c => (NewGroup C r c.1 c.2.1 c.2.2).registry) r).groups name
      = none := by
  induction calls generalizing r with
  | nil => exact hr
  | cons c calls ih =>
    rw [List.foldl_cons]
    apply ih
    · obtain ⟨n, size, gt⟩ := c
      have hn : name ≠ n := fun h => hname (n, size, gt) (List.mem_cons_self _ _) h.symm
      cases gt with
      | none => exact hr
      | some gt => simp [NewGroup, hn, hr]
    · intro d hd
      exact hname d (List.mem_cons_of_mem _ hd)

/-- C14: for every registry state, name, size and non-nil getter, `NewGroup` returns a
pointer `p` to the new group, after which `GetGroup(name)` is `p` (whatever was registered
under the name before), `GetGroup` of every other name is what it was, and the groups
allocated before are as they were; and after any sequence of `NewGroup` calls from program
start `GetGroup` of a name that none of the calls used is nil. -/
theorem NewGroup_registers {σ γ : Type} (C : cache σ) (r : Registry σ γ) (name : GoString)
    (size : Int) (gt : Getter γ) :
    (NewGroup C r name size (some gt)).panic = none ∧
    (∃ p, (NewGroup C r name size (some gt)).group = some p ∧
      GetGroup (NewGroup C r name size (some gt)).registry name = some p ∧
      (NewGroup C r name size (some gt)).registry.heap[p]?
        = some { name := name, getter := gt, mainCache := C.new size }) ∧
    (∀ other, other ≠ name →
      GetGroup (NewGroup C r name size (some gt)).registry other = GetGroup r other) ∧
    (∀ (q : Nat) (g : Group σ γ), r.heap[q]? = some g →
      (NewGroup C r name size (some gt)).registry.heap[q]? = some g) ∧
    (∀ (calls : List (GoString × Int × Option (Getter γ))) (unused : GoString),
      (∀ c ∈ calls, c.1 ≠ unused) →
      GetGroup (Registry.afterCalls C calls : Registry σ γ) unused = none) := by
  refine ⟨rfl, ⟨r.heap.length, rfl, ?_, ?_⟩, ?_, ?_, ?_⟩
  · simp [GetGroup, NewGroup]
  · simp [NewGroup]
  · intro other hne
    simp [GetGroup, NewGroup, hne]
  · intro q g hq
    have hlt : q < r.heap.length := (List.getElem?_eq_some_iff.1 hq).1
    simp only [NewGroup]
    rw [List.getElem?_append_left hlt]
    exact hq
  · intro calls unused hunused
    exact Registry.foldl_groups_none C calls Registry.init unused rfl hunused

/-- C15: for every registry state, name and size, `NewGroup` with the nil getter panics with
`nil Getter`, returns no group and leaves the registry as it was; with a non-nil getter it
does not panic and returns a group. -/
theorem NewGroup_nil_getter_panics {σ γ : Type} (C : cache σ) (r : Registry σ γ)
    (name : GoString) (size : Int) :
    (NewGroup C r name size none).panic = some "nil Getter" ∧
    (NewGroup C r name size none).group = none ∧
    (NewGroup C r name size none).registry = r ∧
    GetGroup (NewGroup C r name size none).registry name = GetGroup r name ∧
    (∀ gt : Getter γ, (NewGroup C r name size (some gt)).panic = none ∧
      ∃ p, (NewGroup C r name size (some gt)).group = some p) :=
  ⟨rfl, rfl, rfl, rfl, fun _ => ⟨rfl, r.heap.length, rfl⟩⟩

/-- Method `Get` leaves the name of its group as it is. -/
theorem Group.Get_name {σ γ : Type} (C : cache σ) (g : Group σ γ) (key : GoString) (env : γ) :
    (Group.Get C g key env).group.name = g.name := by
  unfold Group.Get
  split
  · rfl
  · split
    · rfl
    · simp only [Group.load, Group.getLocally]
      split <;> rfl

/-- A call of `Get` through a pointer that refers to a group returns, and changes nothing
but that group. -/
theorem Registry.derefGet_eq {σ γ : Type} (C : cache σ) (r : Registry σ γ) (p : Nat)
    (g : Group σ γ) (hp : r.heap[p]? = some g) (key : GoString) (env : γ) :
    Registry.derefGet C r p key env
      = some (Group.Get C g key env,
          { r with heap := r.heap.set p (Group.Get C g key env).group }) := by
  simp only [Registry.derefGet, hp]

theorem Registry.Reachable.named {σ γ : Type} {C : cache σ} {r : Registry σ γ}
    (h : Registry.Reachable C r) : r.Named := by
  induction h with
  | init =>
    intro n p hn
    simp [Registry.init] at hn
  | @newGroup r0 name size getter _ ih =>
    cases getter with
    | none => exact ih
    | some gt =>
      intro n p hn
      simp only [NewGroup] at hn ⊢
      by_cases hname : n = name
      · rw [if_pos hname] at hn
        have hp : p = r0.heap.length := (Option.some.inj hn).symm
        subst hp
        exact ⟨{ name := name, getter := gt, mainCache := C.new size }, by simp, hname.symm⟩
      · rw [if_neg hname] at hn
        obtain ⟨g, hg, hgn⟩ := ih n p hn
        have hlt : p < r0.heap.length := (List.getElem?_eq_some_iff.1 hg).1
        exact ⟨g, by rw [List.getElem?_append_left hlt]; exact hg, hgn⟩
  | @get r0 r1 p key env o _ hstep ih =>
    intro n q hn
    cases hp : r0.heap[p]? with
    | none => simp [Registry.derefGet, hp] at hstep
    | some g0 =>
      rw [Registry.derefGet_eq C r0 p g0 hp] at hstep
      have hr1 : r1 = { r0 with heap := r0.heap.set p (Group.Get C g0 key env).group } :=
        (congrArg Prod.snd (Option.some.inj hstep)).symm
      subst hr1
      obtain ⟨g, hg, hgn⟩ := ih n q hn
      have hlt : q < r0.heap.length := (List.getElem?_eq_some_iff.1 hg).1
      by_cases hpq : p = q
      · subst hpq
        refine ⟨(Group.Get C g0 key env).group, by simp [hlt], ?_⟩
        rw [Group.Get_name]
        rw [hp] at hg
        rw [Option.some.inj hg]
        exact hgn
      · exact ⟨g, by simp only [List.getElem?_set_ne hpq]; exact hg, hgn⟩

/-- C16: in every registry state that `NewGroup` and `Get` calls lead to, two groups
registered under different names are different groups, and a `Get(key)` on one of them,
whatever its outcome, returns and leaves the other group, with its store, and the
registrations as they were; every later `Get` on the other group has the outcome it would
have had without the call, so an entry that the call put into the one store is not a hit in
the other. -/
theorem Get_leaves_other_group {σ γ : Type} (C : cache σ) (r : Registry σ γ)
    (hr : Registry.Reachable C r) (name1 name2 : GoString) (p1 p2 : Nat)
    (hne : name1 ≠ name2) (h1 : GetGroup r name1 = some p1) (h2 : GetGroup r name2 = some p2)
    (key : GoString) (env : γ) :
    p1 ≠ p2 ∧
    ∃ o r1, Registry.derefGet C r p1 key env = some (o, r1) ∧
      r1.heap[p2]? = r.heap[p2]? ∧
      (∀ n, GetGroup r1 n = GetGroup r n) ∧
      (∀ key2 env2, (Registry.derefGet C r1 p2 key2 env2).map Prod.fst
        = (Registry.derefGet C r p2 key2 env2).map Prod.fst) := by
  obtain ⟨g1, hg1, hn1⟩ := hr.named name1 p1 h1
  obtain ⟨g2, hg2, hn2⟩ := hr.named name2 p2 h2
  have hp : p1 ≠ p2 := by
    intro h
    subst h
    rw [hg1] at hg2
    rw [Option.some.inj hg2] at hn1
    exact hne (hn1.symm.trans hn2)
  refine ⟨hp, _, _, Registry.derefGet_eq C r p1 g1 hg1 key env, ?_, fun n => rfl, ?_⟩
  · simp only [List.getElem?_set_ne hp]
  · intro key2 env2
    have hsame : ({ r with heap := r.heap.set p1 (Group.Get C g1 key env).group } :
        Registry σ γ).heap[p2]? = some g2 := by
      simp only [List.getElem?_set_ne hp]
      exact hg2
    rw [Registry.derefGet_eq C _ p2 g2 hsame, Registry.derefGet_eq C r p2 g2 hg2]
    rfl

/-- Instance of C16: groups `a` and `b` made at program start with the test getter; the
call `Get("Tom")` on `a` returns and leaves the group `b` as it was. -/
theorem Get_leaves_other_group_witness :
    lit "a" ≠ lit "b" ∧
    GetGroup (Registry.afterCalls listCache
        [(lit "a", 2048, some testGetter), (lit "b", 2048, some testGetter)]) (lit "a") = some 0 ∧
    GetGroup (Registry.afterCalls listCache
        [(lit "a", 2048, some testGetter), (lit "b", 2048, some testGetter)]) (lit "b") = some 1 ∧
    ∃ o r1, Registry.derefGet listCache (Registry.afterCalls listCache
        [(lit "a", 2048, some testGetter), (lit "b", 2048, some testGetter)]) 0 (lit "Tom") (fun _ => 0) = some (o, r1) ∧
      r1.heap[1]? = ((Registry.afterCalls listCache
        [(lit "a", 2048, some testGetter), (lit "b", 2048, some testGetter)])).heap[1]? :=
  ⟨by decide, rfl, rfl,
   match (Get_leaves_other_group listCache (Registry.afterCalls listCache
        [(lit "a", 2048, some testGetter), (lit "b", 2048, some testGetter)])
      (Registry.Reachable.newGroup (lit "b") 2048 (some testGetter)
        (Registry.Reachable.newGroup (lit "a") 2048 (some testGetter)
          Registry.Reachable.init))
      (lit "a") (lit "b") 0 1 (by decide) rfl rfl (lit "Tom") (fun _ => 0)).2 with
   | ⟨o, r1, hstep, hheap, _⟩ => ⟨o, r1, hstep, hheap⟩⟩

/-! ## The ring: names of virtual nodes, and adding a node again -/

theorem toNat_digit (n : Nat) : (UInt8.ofNat (48 + n % 10)).toNat = 48 + n % 10 := by
  have h : 48 + n % 10 < 256 := by omega
  simp [UInt8.toNat, UInt8.ofNat, Fin.ofNat, Nat.mod_eq_of_lt h]

theorem digitsAux_spec : ∀ (fuel n : Nat) (acc : GoString), n < fuel →
    ∃ ds, digitsAux fuel n acc = ds ++ acc ∧ (∀ d ∈ ds, isDigit d = true) ∧
      digitsValue ds = n := by
  intro fuel
  induction fuel with
  | zero => intro n acc h; omega
  | succ fuel ih =>
    intro n acc h
    have hd : isDigit (UInt8.ofNat (48 + n % 10)) = true := by
      simp only [isDigit, toNat_digit, decide_eq_true_eq]; omega
    by_cases h0 : n / 10 = 0
    · refine ⟨[UInt8.ofNat (48 + n % 10)], by simp [digitsAux, h0], ?_, ?_⟩
      · intro d hmem
        rw [List.mem_singleton.1 hmem]; exact hd
      · simp only [digitsValue, List.foldl_cons, List.foldl_nil, toNat_digit]
        omega
    · obtain ⟨ds, h1, h2, h3⟩ := ih (n / 10) (UInt8.ofNat (48 + n % 10) :: acc) (by omega)
      refine ⟨ds ++ [UInt8.ofNat (48 + n % 10)], ?_, ?_, ?_⟩
      · simp [digitsAux, h0, h1]
      · intro d hmem
        rcases List.mem_append.1 hmem with hm | hm
        · exact h2 d hm
        · rw [List.mem_singleton.1 hm]; exact hd
      · unfold digitsValue at h3 ⊢
        rw [List.foldl_append, h3]
        simp only [List.foldl_cons, List.foldl_nil, toNat_digit]
        omega

theorem Itoa_ofNat (i : Nat) : Itoa (Int.ofNat i) = digitsAux (i + 1) i [] := by
  have : ¬ (Int.ofNat i < 0) := by simp
  simp [Itoa]

theorem Itoa_spec (i : Nat) :
    (∀ d ∈ Itoa (Int.ofNat i), isDigit d = true) ∧ digitsValue (Itoa (Int.ofNat i)) = i := by
  obtain ⟨ds, h1, h2, h3⟩ := digitsAux_spec (i + 1) i [] (Nat.lt_succ_self i)
  rw [Itoa_ofNat, h1, List.append_nil]
  exact ⟨h2, h3⟩

theorem Itoa_injective {i j : Nat} (h : Itoa (Int.ofNat i) = Itoa (Int.ofNat j)) : i = j := by
  rw [← (Itoa_spec i).2, ← (Itoa_spec j).2, h]

theorem digitPrefixed_append {e t : GoString} (he : e ≠ [])
    (hd : ∀ d ∈ e, isDigit d = true) : digitPrefixed (e ++ t) t = true := by
  have hpos : 0 < e.length := List.length_pos.2 he
  simp only [digitPrefixed, List.length_append, Nat.add_sub_cancel, List.drop_left,
    List.take_left, Bool.and_eq_true, decide_eq_true_eq, beq_self_eq_true, List.all_eq_true]
  exact ⟨⟨by omega, trivial⟩, hd⟩

theorem digitPrefixed_elim {s t : GoString} (h : digitPrefixed s t = true) :
    ∃ e, e ≠ [] ∧ (∀ d ∈ e, isDigit d = true) ∧ s = e ++ t := by
  simp only [digitPrefixed, Bool.and_eq_true, decide_eq_true_eq, beq_iff_eq,
    List.all_eq_true] at h
  obtain ⟨⟨hlt, hdrop⟩, hall⟩ := h
  refine ⟨s.take (s.length - t.length), ?_, hall, ?_⟩
  · intro hnil
    have := congrArg List.length hnil
    simp at this
    omega
  · conv_lhs => rw [← List.take_append_drop (s.length - t.length) s]
    rw [hdrop]

theorem digitPrefixed_startsWithDigit {s t : GoString} (h : digitPrefixed s t = true) :
    t.length < s.length ∧ startsWithDigit s = true := by
  obtain ⟨e, he, hd, hs⟩ := digitPrefixed_elim h
  cases e with
  | nil => exact absurd rfl he
  | cons x e =>
    subst hs
    exact ⟨by simp; omega, by simpa [startsWithDigit] using hd x (List.mem_cons_self _ _)⟩

theorem digitsValue_snoc (l : List UInt8) (a : UInt8) :
    digitsValue (l ++ [a]) = 10 * digitsValue l + (a.toNat - 48) := by
  simp [digitsValue, List.foldl_append]

theorem ofNat_toNat_digit (a : UInt8) : UInt8.ofNat a.toNat = a := by
  cases a with
  | mk v =>
    apply UInt8.ext
    simp [UInt8.ofNat, UInt8.toNat, Fin.ofNat]

theorem digitsValue_pos : ∀ (ds : List UInt8), (∀ d ∈ ds, isDigit d = true) → ds ≠ [] →
    (∀ x, ds.head? = some x → x ≠ 48) → 0 < digitsValue ds := by
  intro ds
  induction ds using List.reverseRecOn with
  | nil => intro _ h; exact absurd rfl h
  | append_singleton l a ih =>
    intro hall _ hhead
    rw [digitsValue_snoc]
    cases l with
    | nil =>
      have ha : a ≠ 48 := hhead a rfl
      have hdig := hall a (by simp)
      simp only [isDigit, decide_eq_true_eq] at hdig
      have : a.toNat ≠ 48 := by
        intro h48
        apply ha
        rw [← ofNat_toNat_digit a, h48]
        rfl
      omega
    | cons x l =>
      have := ih (fun d hd => hall d (by simp at hd ⊢; tauto)) (by simp)
        (fun y hy => hhead y (by simpa using hy))
      omega

theorem digitsAux_digitsValue : ∀ (ds : List UInt8), (∀ d ∈ ds, isDigit d = true) → ds ≠ [] →
    (∀ x, ds.head? = some x → x ≠ 48) → ∀ (fuel : Nat) (acc : GoString),
    digitsValue ds < fuel → digitsAux fuel (digitsValue ds) acc = ds ++ acc := by
  intro ds
  induction ds using List.reverseRecOn with
  | nil => intro _ h; exact absurd rfl h
  | append_singleton l a ih =>
    intro hall _ hhead fuel acc hfuel
    have hdig := hall a (by simp)
    simp only [isDigit, decide_eq_true_eq] at hdig
    rw [digitsValue_snoc] at hfuel ⊢
    have hmod : (10 * digitsValue l + (a.toNat - 48)) % 10 = a.toNat - 48 := by omega
    have hdiv : (10 * digitsValue l + (a.toNat - 48)) / 10 = digitsValue l := by omega
    have hbyte : UInt8.ofNat (48 + (a.toNat - 48)) = a := by
      have : 48 + (a.toNat - 48) = a.toNat := by omega
      rw [this, ofNat_toNat_digit]
    cases fuel with
    | zero => omega
    | succ fuel =>
      rw [digitsAux]
      simp only [hmod, hdiv, hbyte]
      cases l with
      | nil => simp [digitsValue]
      | cons x l =>
        have hpos := digitsValue_pos (x :: l) (fun d hd => hall d (by simp at hd ⊢; tauto))
          (by simp) (fun y hy => hhead y (by simpa using hy))
        rw [if_neg (by omega)]
        rw [ih (fun d hd => hall d (by simp at hd ⊢; tauto)) (by simp)
          (fun y hy => hhead y (by simpa using hy)) fuel (a :: acc) (by omega)]
        simp

theorem Itoa_digitsValue (ds : List UInt8) (hall : ∀ d ∈ ds, isDigit d = true) (hne : ds ≠ [])
    (hhead : ∀ x, ds.head? = some x → x ≠ 48) : Itoa (Int.ofNat (digitsValue ds)) = ds := by
  rw [Itoa_ofNat, digitsAux_digitsValue ds hall hne hhead _ [] (Nat.lt_succ_self _),
    List.append_nil]

/-- A node id that is another one preceded by decimal digits does give two equal names. -/
theorem digitPrefixed_collides {s t : GoString} (h : digitPrefixed s t = true) :
    ∃ i j : Nat, i ≠ j ∧ Itoa (Int.ofNat i) ++ s = Itoa (Int.ofNat j) ++ t := by
  obtain ⟨e, he, hd, hs⟩ := digitPrefixed_elim h
  have hall : ∀ d ∈ (49 : UInt8) :: e, isDigit d = true := by
    intro d hmem
    rcases List.mem_cons.1 hmem with h1 | h1
    · rw [h1]; decide
    · exact hd d h1
  have hj := Itoa_digitsValue ((49 : UInt8) :: e) hall (by simp)
    (fun x hx => by simp at hx; rw [← hx]; decide)
  have h1 : Itoa (Int.ofNat 1) = [(49 : UInt8)] := by decide
  refine ⟨1, digitsValue ((49 : UInt8) :: e), ?_, ?_⟩
  · intro hij
    rw [← hij, h1] at hj
    have := congrArg List.length hj
    simp at this
    exact he this
  · rw [hj, h1, hs]
    simp

theorem append_eq_of_no_digit_prefix {a c s t : GoString} (hc : ∀ d ∈ c, isDigit d = true)
    (ha : ∀ d ∈ a, isDigit d = true) (hst : digitPrefixed s t = false)
    (hts : digitPrefixed t s = false) (h : a ++ s = c ++ t) : a = c ∧ s = t := by
  rcases List.append_eq_append_iff.1 h with ⟨e, hce, hse⟩ | ⟨e, hae, hte⟩
  · by_cases he : e = []
    · subst he; simp at hce hse; exact ⟨hce.symm, hse⟩
    · exfalso
      have := digitPrefixed_append (t := t) he (fun d hd => hc d (by rw [hce]; simp [hd]))
      rw [← hse, hst] at this
      cases this
  · by_cases he : e = []
    · subst he; simp at hae hte; exact ⟨hae, hte.symm⟩
    · exfalso
      have := digitPrefixed_append (t := s) he (fun d hd => ha d (by rw [hae]; simp [hd]))
      rw [← hte, hts] at this
      cases this

/-- C18, as stated, fails in its second half: replica 1 of the node id `0x` and replica 10
of the node id `x` have the same virtual-node name `10x`. -/
theorem virtual_names_collide :
    Itoa 1 ++ lit "0x" = Itoa 10 ++ lit "x" ∧
    ¬ (Itoa 1 ++ lit "0x" = Itoa 10 ++ lit "x" → (1 : Int) = 10 ∧ lit "0x" = lit "x") := by
  decide

/-- C18, amended: for a node id `s` and replica indices `i ≠ j` the names
`strconv.Itoa(i) + s` and `strconv.Itoa(j) + s` differ; and for node ids `s`, `t` of which
neither is the other preceded by one or more decimal digits, the names
`strconv.Itoa(i) + s` and `strconv.Itoa(j) + t` are equal only if `i = j` and `s = t`.
(For a pair of ids that the condition leaves out, `digitPrefixed_collides` gives indices with
equal names.) -/
theorem virtual_names_distinct (s t : GoString) (i j : Nat) :
    (i ≠ j → Itoa (Int.ofNat i) ++ s ≠ Itoa (Int.ofNat j) ++ s) ∧
    (digitPrefixed s t = false → digitPrefixed t s = false →
      Itoa (Int.ofNat i) ++ s = Itoa (Int.ofNat j) ++ t → i = j ∧ s = t) := by
  constructor
  · intro hij h
    exact hij (Itoa_injective (List.append_cancel_right h))
  · intro hst hts h
    obtain ⟨h1, h2⟩ := append_eq_of_no_digit_prefix (Itoa_spec j).1 (Itoa_spec i).1 hst hts h
    exact ⟨Itoa_injective h1, h2⟩

/-- Instance of amended C18: replicas 1 and 10 of the node id `x` have different names; so
have replica 1 of `node` and replica 10 of `7`, and replica 1 of `10.0.0.1:80` and replica 11
of `10.0.0.12:80`, ids of different lengths of which one or both begin with a digit. -/
theorem virtual_names_distinct_witness :
    ((1 : Nat) ≠ 10 ∧ Itoa (Int.ofNat 1) ++ lit "x" ≠ Itoa (Int.ofNat 10) ++ lit "x") ∧
    (digitPrefixed (lit "node") (lit "7") = false ∧
      digitPrefixed (lit "7") (lit "node") = false ∧
      Itoa (Int.ofNat 1) ++ lit "node" ≠ Itoa (Int.ofNat 10) ++ lit "7") ∧
    (digitPrefixed (lit "10.0.0.1:80") (lit "10.0.0.12:80") = false ∧
      digitPrefixed (lit "10.0.0.12:80") (lit "10.0.0.1:80") = false ∧
      Itoa (Int.ofNat 1) ++ lit "10.0.0.1:80" ≠ Itoa (Int.ofNat 11) ++ lit "10.0.0.12:80") :=
  ⟨⟨by decide, (virtual_names_distinct (lit "x") (lit "x") 1 10).1 (by decide)⟩,
   ⟨by decide, by decide, fun h =>
      absurd ((virtual_names_distinct (lit "node") (lit "7") 1 10).2
        (by decide) (by decide) h).1 (by decide)⟩,
   ⟨by decide, by decide, fun h =>
      absurd ((virtual_names_distinct (lit "10.0.0.1:80") (lit "10.0.0.12:80") 1 11).2
        (by decide) (by decide) h).1 (by decide)⟩⟩

/-- C19: for a ring produced by `New` and `Add` calls, a node id `n` and a key `k`, `Get(k)`
after `Add(n)` followed by a second `Add(n)` is `Get(k)` after the first `Add(n)`, while the
second call makes the hash sequence longer by one entry per replica. -/
theorem Add_again_same_owner (replicas : Int) (fn : Option Hash)
    (calls : List (List GoString)) (n key : GoString) :
    ((((Map.New replicas fn).addCalls calls).Add [n]).Add [n]).Get key
      = (((Map.New replicas fn).addCalls calls).Add [n]).Get key ∧
    ((((Map.New replicas fn).addCalls calls).Add [n]).Add [n]).keys.length
      = (((Map.New replicas fn).addCalls calls).Add [n]).keys.length + replicas.toNat := by
  have hrep : ((Map.New replicas fn).addCalls calls).replicas = replicas :=
    (Map.tracks_addCalls replicas fn calls).replicas_eq
  generalize (Map.New replicas fn).addCalls calls = m at hrep
  have hvh : (m.Add [n]).virtualHashes n = m.virtualHashes n := by
    rw [Map.virtualHashes_Add]
  have hmem : ∀ x, x ∈ ((m.Add [n]).Add [n]).keys ↔ x ∈ (m.Add [n]).keys := by
    intro x
    rw [Map.mem_Add_keys (m.Add [n]) [n] x]
    constructor
    · rintro (h | ⟨s, hs, hx⟩)
      · exact h
      · rw [List.mem_singleton.1 hs, hvh] at hx
        exact (Map.mem_Add_keys m [n] x).2 (Or.inr ⟨n, List.mem_singleton_self n, hx⟩)
    · exact Or.inl
  refine ⟨?_, ?_⟩
  · apply Map.Get_congr _ _ key (Map.sorted_Add_keys _ [n]) (Map.sorted_Add_keys m [n])
      (Map.Add_hash _ [n]) hmem
    intro x _
    rw [Map.Add_single_hashMap (m.Add [n]) n x, hvh, Map.Add_single_hashMap m n x]
    split <;> rfl
  · rw [Map.Add_keys (m.Add [n]) [n], sortInts, List.length_insertionSort, List.length_append,
      List.flatMap_cons, List.flatMap_nil, List.append_nil, hvh]
    simp [Map.virtualHashes, hrep]

/-! ## Slices as references -/

namespace Ref

theorem contents_some (mem : Mem) (a : Nat) : contents mem (some a) = (mem[a]?).getD [] := rfl

/-- An assignment through `some c` keeps the size of the memory and every other array. -/
theorem assign_frame {mem mem1 : Mem} {c i : Nat} {x : UInt8}
    (h : assign mem (some c) i x = some mem1) :
    mem1.length = mem.length ∧ ∀ a, a ≠ c → mem1[a]? = mem[a]? := by
  unfold assign at h
  dsimp only at h
  split at h
  · cases h
    refine ⟨List.length_set _ _ _, ?_⟩
    intro a ha
    exact List.getElem?_set_ne (Ne.symm ha)
  · cases h

theorem assigns_frame {c : Nat} : ∀ (writes : List (Nat × UInt8)) {mem mem1 : Mem},
    assigns mem (some c) writes = some mem1 →
    mem1.length = mem.length ∧ ∀ a, a ≠ c → mem1[a]? = mem[a]? := by
  intro writes
  induction writes with
  | nil =>
    intro mem mem1 h
    cases h
    exact ⟨rfl, fun _ _ => rfl⟩
  | cons w ws ih =>
    intro mem mem1 h
    unfold assigns at h
    cases hstep : assign mem (some c) w.1 w.2 with
    | none => rw [hstep] at h; cases h
    | some mem0 =>
      rw [hstep] at h
      obtain ⟨hl0, hf0⟩ := assign_frame hstep
      obtain ⟨hl1, hf1⟩ := ih h
      exact ⟨hl1.trans hl0, fun a ha => (hf1 a ha).trans (hf0 a ha)⟩

/-- Assignments through one slice leave the contents of every slice on another array. -/
theorem contents_assigns {mem mem1 : Mem} {s : Slice} {writes : List (Nat × UInt8)}
    (h : assigns mem s writes = some mem1) (t : Slice) (hts : t ≠ s) :
    contents mem1 t = contents mem t := by
  cases t with
  | none => rfl
  | some a =>
    cases s with
    | none =>
      cases writes with
      | nil => cases h; rfl
      | cons w ws => simp [assigns, assign] at h
    | some c =>
      have hac : a ≠ c := fun hh => hts (by rw [hh])
      rw [contents_some, contents_some, (assigns_frame writes h).2 a hac]

/-- Function `cloneBytes` returns a reference to a new array with the contents of its
argument, and leaves the arrays that were there as they were. -/
theorem cloneBytes_spec (mem : Mem) (b : Slice) (hb : Allocated mem b) :
    (cloneBytes mem b).1 = some mem.length ∧
    (cloneBytes mem b).2.length = mem.length + 1 ∧
    contents (cloneBytes mem b).2 (cloneBytes mem b).1 = contents mem b ∧
    ∀ s, Allocated mem s → contents (cloneBytes mem b).2 s = contents mem s := by
  have hold : ∀ s, Allocated mem s →
      contents (mem ++ [List.replicate (contents mem b).length 0]) s = contents mem s := by
    intro s hs
    cases s with
    | none => rfl
    | some a =>
      have ha : a < mem.length := hs a rfl
      rw [contents_some, contents_some, List.getElem?_append_left ha]
  have hnew : contents (mem ++ [List.replicate (contents mem b).length 0]) (some mem.length)
      = List.replicate (contents mem b).length 0 := by
    rw [contents_some]
    simp
  refine ⟨rfl, ?_, ?_, ?_⟩
  · simp [cloneBytes, make, copy]
  · simp only [cloneBytes, make, copy]
    rw [hnew, hold b hb, contents_some]
    simp [GoCache.copy]
  · intro s hs
    simp only [cloneBytes, make, copy]
    cases s with
    | none => rfl
    | some a =>
      have ha : a < mem.length := hs a rfl
      rw [contents_some, List.getElem?_set_ne (by omega), ← contents_some]
      exact hold (some a) hs

end Ref

/-- C17: for a view `v` whose payload is an array of the memory, `ByteSlice` returns a slice
with the length and the contents of the payload on a new array; whatever is then assigned
through the returned slice, `v.String()`, `v.Len()` and a later `v.ByteSlice()` are what they
were, and a `Get` for a key under which the store holds `v` returns `v` with its contents as
they were.  Likewise the view that `getLocally` stores and returns is on a new array with the
contents of the slice that the getter returned, and whatever is then assigned through the
getter's slice, the contents of the stored view stay. -/
theorem ByteSlice_independent (σ γ : Type) (mem : Mem) (v : Ref.ByteView)
    (hv : Ref.Allocated mem v.b) :
    Ref.contents (v.ByteSlice mem).2 (v.ByteSlice mem).1 = Ref.contents mem v.b ∧
    (Ref.contents (v.ByteSlice mem).2 (v.ByteSlice mem).1).length = v.Len mem ∧
    (v.ByteSlice mem).1 ≠ v.b ∧
    (∀ writes mem2, Ref.assigns (v.ByteSlice mem).2 (v.ByteSlice mem).1 writes = some mem2 →
      v.String mem2 = v.String mem ∧
      v.Len mem2 = v.Len mem ∧
      Ref.contents (v.ByteSlice mem2).2 (v.ByteSlice mem2).1 = Ref.contents mem v.b ∧
      (∀ (C : Ref.cache σ) (g : Ref.Group σ γ) (key : GoString) (env : γ) (s1 : σ),
        key ≠ lit "" → C.get g.mainCache key = ((v, true), s1) →
        (Ref.Group.Get C g key env mem2).value = v ∧
        (Ref.Group.Get C g key env mem2).err = none ∧
        (Ref.Group.Get C g key env mem2).value.String (Ref.Group.Get C g key env mem2).mem
          = v.String mem)) ∧
    (∀ (C : Ref.cache σ) (g : Ref.Group σ γ) (key : GoString) (env env1 : γ)
        (mem0 mem1 : Mem) (bytes : Slice),
      g.getter env mem0 key = ((bytes, none), env1, mem1) → Ref.Allocated mem1 bytes →
      (Ref.Group.getLocally C g key env mem0).err = none ∧
      (Ref.Group.getLocally C g key env mem0).value.String
          (Ref.Group.getLocally C g key env mem0).mem = Ref.contents mem1 bytes ∧
      (Ref.Group.getLocally C g key env mem0).value.b ≠ bytes ∧
      (Ref.Group.getLocally C g key env mem0).group.mainCache
        = C.add g.mainCache key (Ref.Group.getLocally C g key env mem0).value ∧
      (∀ writes mem3,
        Ref.assigns (Ref.Group.getLocally C g key env mem0).mem bytes writes = some mem3 →
        (Ref.Group.getLocally C g key env mem0).value.String mem3 = Ref.contents mem1 bytes)) := by
  have fresh : ∀ (m : Mem) (s : Slice), Ref.Allocated m s → some m.length ≠ s := by
    intro m s hs h
    have := hs m.length h.symm
    omega
  obtain ⟨hc, hlen, hcont, hold⟩ := Ref.cloneBytes_spec mem v.b hv
  have hne : (Ref.cloneBytes mem v.b).1 ≠ v.b := by rw [hc]; exact fresh mem v.b hv
  refine ⟨hcont, congrArg List.length hcont, hne, ?_, ?_⟩
  · intro writes mem2 hw
    have hw1 : Ref.assigns (Ref.cloneBytes mem v.b).2 (Ref.cloneBytes mem v.b).1 writes
        = some mem2 := hw
    have hkeep : Ref.contents mem2 v.b = Ref.contents mem v.b := by
      rw [Ref.contents_assigns hw1 v.b (Ne.symm hne), hold v.b hv]
    have hlen2 : mem2.length = mem.length + 1 := by
      rw [hc] at hw1
      rw [(Ref.assigns_frame writes hw1).1, hlen]
    have hv2 : Ref.Allocated mem2 v.b := by
      intro a ha
      have := hv a ha
      omega
    refine ⟨hkeep, by simp only [Ref.ByteView.Len, hkeep], ?_, ?_⟩
    · exact (Ref.cloneBytes_spec mem2 v.b hv2).2.2.1.trans hkeep
    · intro C g key env s1 hkey hhit
      have hk : ¬ key = [] := hkey
      have hget : Ref.Group.Get C g key env mem2 =
          { value := v, err := none, group := { g with mainCache := s1 }, env := env,
            mem := mem2 } := by
        unfold Ref.Group.Get
        rw [if_neg hk, hhit]
      rw [hget]
      exact ⟨rfl, rfl, hkeep⟩
  · intro C g key env env1 mem0 mem1 bytes hfetch hbytes
    have hget : Ref.Group.getLocally C g key env mem0 =
        { value := ⟨(Ref.cloneBytes mem1 bytes).1⟩, err := none,
          group := Ref.Group.populateCache C g key ⟨(Ref.cloneBytes mem1 bytes).1⟩,
          env := env1, mem := (Ref.cloneBytes mem1 bytes).2 } := by
      simp only [Ref.Group.getLocally, hfetch]
    obtain ⟨kc, _, kcont, _⟩ := Ref.cloneBytes_spec mem1 bytes hbytes
    have kne : (Ref.cloneBytes mem1 bytes).1 ≠ bytes := by rw [kc]; exact fresh mem1 bytes hbytes
    rw [hget]
    refine ⟨rfl, kcont, kne, rfl, ?_⟩
    intro writes mem3 hw
    exact (Ref.contents_assigns hw _ kne).trans kcont

/-- Instance of C17: the view of the one array `630` of a memory; after `ByteSlice` the first
byte of the returned slice is overwritten, and the view still reads `630`. -/
theorem ByteSlice_independent_witness :
    Ref.Allocated [lit "630"] (some 0) ∧
    Ref.assigns ((⟨some 0⟩ : Ref.ByteView).ByteSlice [lit "630"]).2
      ((⟨some 0⟩ : Ref.ByteView).ByteSlice [lit "630"]).1 [(0, 55)]
        = some [lit "630", lit "730"] ∧
    (⟨some 0⟩ : Ref.ByteView).String [lit "630", lit "730"] = lit "630" :=
  ⟨by decide, by decide,
   ((ByteSlice_independent Unit Unit [lit "630"] ⟨some 0⟩ (by decide)).2.2.2.1
      [(0, 55)] [lit "630", lit "730"] (by decide)).1⟩

end GoCache
